import Mathlib

/-!
# Verification of the kiro-spec-engine enhancement pipeline

Shallow embedding of the convergence-controlled enhancement loop and its
collaborators, translated from the Python sources:

* `src/template/.kiro/tools/ultrawork_enhancer_v3.py` (Convergence Controller)
* `src/.sce/tools/ultrawork_enhancer.py` (legacy controller)
* `src/template/.kiro/tools/document_evaluator.py` (Scoring Model)
* `src/template/.kiro/tools/modification_applicator.py` (Content Mutator)
* `src/template/.kiro/tools/quality_gate_enforcer.py` and
  `src/template/.kiro/tools/workflow_quality_gate.py` (Quality gate CLIs)

Python floats are modelled as `ℚ` (every literal in the sources is an exact
decimal, and the facts proved here depend only on ordered-field reasoning that
is identical for IEEE doubles on these code paths).  Documents are `List Char`.
-/

namespace KiroSpec

/-! ## Convergence Controller (`ultrawork_enhancer_v3.py`)

The controller drives Score → Identify → Apply → Rescore cycles.  The three
engines it calls (`DocumentEvaluator`, `ImprovementIdentifier`,
`ModificationApplicator`) are deterministic, so the loop is embedded
parametrically over their graphs: `assess` is the score of
`assess_requirements_quality` / `assess_design_quality`, `identify` composes
the identifier with the assessment of the same content (the identifier is only
ever called as `identify(content, assess(content))`), and `applyImps` returns
`(modified_content, applied_improvements, failed_improvements)` of the
applicator.  This one embedding covers both `enhance_requirements_quality`
(lines 79-252) and `enhance_design_completeness` (lines 254-441), which are
textually identical up to which engines are plugged in. -/

/-- The `stopping_reason` strings of `EnhancementResult`
(`ultrawork_enhancer_v3.py` line 29), as a closed enumeration.
`fileReadError` / `fileWriteError` stand for the `f"file_read_error: {e}"` /
`f"file_write_error: {e}"` tags. -/
inductive StopReason where
  | thresholdReached
  | maxIterations
  | plateau
  | noImprovements
  | fileReadError
  | fileWriteError
  | validationOnly
  deriving DecidableEq, Repr

/-- Which `break` statement left the `while` loop (ghost information used to
analyse the run; `none` means the `while` guard itself became false). -/
inductive BreakTag where
  | threshold
  | plateau
  | noImprovements
  deriving DecidableEq, Repr

/-- Constructor parameters of `UltraworkEnhancerV3.__init__`
(`ultrawork_enhancer_v3.py` lines 42-59). -/
structure EnhanceConfig where
  qualityThreshold : ℚ := 9
  maxIterations : ℕ := 10
  plateauIterations : ℕ := 3
  minScoreImprovement : ℚ := 1/10

/-- The deterministic engine graphs the controller calls.
`α` is the document-content type, `ι` the improvement-record type, `ε` the
exception type carried by failed improvements. -/
structure Components (α ι ε : Type) where
  assess : α → ℚ
  identify : α → List ι
  applyImps : α → List ι → α × List ι × List (ι × ε)

/-- The local variables of the improvement loop of
`enhance_requirements_quality` (lines 129-137): `current_content`,
`current_score`, `score_history`, `all_applied`, `all_failed`, `iteration`,
`plateau_count`. -/
structure LoopState (α ι ε : Type) where
  content : α
  curScore : ℚ
  history : List ℚ
  applied : List ι
  failed : List (ι × ε)
  iteration : ℕ
  plateauCount : ℕ

/-- The `while iteration < self.max_iterations` loop of
`enhance_requirements_quality` (lines 138-203).  The fuel argument is
`max_iterations - iteration`, so `fuel = 0` is exactly the guard failing.
Mirrors the Python control flow statement by statement: increment `iteration`,
identify (an empty list breaks with `no_improvements` *before* re-scoring),
apply, append the re-score to the history, then check threshold, then the
plateau counter (reset to `0` on a cycle whose delta reaches
`min_score_improvement`). -/
def loopGo {α ι ε : Type} (cfg : EnhanceConfig) (comps : Components α ι ε) :
    ℕ → LoopState α ι ε → LoopState α ι ε × Option BreakTag
  | 0, s => (s, none)
  | fuel + 1, s =>
    let iter := s.iteration + 1
    let imps := comps.identify s.content
    if imps.isEmpty then
      ({ s with iteration := iter }, some BreakTag.noImprovements)
    else
      let out := comps.applyImps s.content imps
      let newScore := comps.assess out.1
      let delta := newScore - s.curScore
      let s' : LoopState α ι ε :=
        { content := out.1
          curScore := newScore
          history := s.history ++ [newScore]
          applied := s.applied ++ out.2.1
          failed := s.failed ++ out.2.2
          iteration := iter
          plateauCount := s.plateauCount }
      if cfg.qualityThreshold ≤ newScore then
        (s', some BreakTag.threshold)
      else if delta < cfg.minScoreImprovement then
        if cfg.plateauIterations ≤ s.plateauCount + 1 then
          ({ s' with plateauCount := s.plateauCount + 1 }, some BreakTag.plateau)
        else
          loopGo cfg comps fuel { s' with plateauCount := s.plateauCount + 1 }
      else
        loopGo cfg comps fuel { s' with plateauCount := 0 }

/-- The fields of the `EnhancementResult` dataclass
(`ultrawork_enhancer_v3.py` lines 19-32) that the claims are about
(`modification_report` and `timestamp` are never read by any caller in the
sources and are omitted). -/
structure EnhancementResult (ι ε : Type) where
  success : Bool
  initialScore : ℚ
  finalScore : ℚ
  iterations : ℕ
  improvementsApplied : List ι
  improvementsFailed : List (ι × ε)
  stoppingReason : StopReason
  scoreHistory : List ℚ

/-- One enhancement run together with its observable file-system effect:
`writeAttempted` records whether the `open(path, 'w')` save step (lines
210-214) was executed, `written` is the content the run wrote when the write
succeeded.  `breakTag` is the ghost break cause. -/
structure RunOutcome (α ι ε : Type) where
  result : EnhancementResult ι ε
  writeAttempted : Bool
  written : Option α
  breakTag : Option BreakTag

/-- `UltraworkEnhancerV3.enhance_requirements_quality` /
`enhance_design_completeness` after a successful read of the document:
initial assessment, early `threshold_reached` return with `iterations=0`
(lines 117-127), otherwise the loop, then the post-loop
`if iteration >= self.max_iterations: stopping_reason = 'max_iterations'`
re-assignment (lines 206-208) — note that this overwrites the reason set by a
`break` in the final iteration — and finally the unconditional save (lines
211-214), whose failure is returned as `file_write_error` with
`success=False` (lines 215-227).  The `| none => .maxIterations` arm of the
match is unreachable from `enhance` (exhausting the fuel forces
`iteration = maxIterations`, making the first branch fire). -/
def enhance {α ι ε : Type} (cfg : EnhanceConfig) (comps : Components α ι ε)
    (content : α) (writeOk : Bool) : RunOutcome α ι ε :=
  let initialScore := comps.assess content
  if cfg.qualityThreshold ≤ initialScore then
    { result :=
        { success := true
          initialScore := initialScore
          finalScore := initialScore
          iterations := 0
          improvementsApplied := []
          improvementsFailed := []
          stoppingReason := StopReason.thresholdReached
          scoreHistory := [initialScore] }
      writeAttempted := false
      written := none
      breakTag := none }
  else
    let out := loopGo cfg comps cfg.maxIterations
      { content := content
        curScore := initialScore
        history := [initialScore]
        applied := []
        failed := []
        iteration := 0
        plateauCount := 0 }
    let s := out.1
    let reason : StopReason :=
      if cfg.maxIterations ≤ s.iteration then StopReason.maxIterations
      else
        match out.2 with
        | some BreakTag.threshold => StopReason.thresholdReached
        | some BreakTag.plateau => StopReason.plateau
        | some BreakTag.noImprovements => StopReason.noImprovements
        | none => StopReason.maxIterations
    if writeOk then
      { result :=
          { success := true
            initialScore := initialScore
            finalScore := s.curScore
            iterations := s.iteration
            improvementsApplied := s.applied
            improvementsFailed := s.failed
            stoppingReason := reason
            scoreHistory := s.history }
        writeAttempted := true
        written := some s.content
        breakTag := out.2 }
    else
      { result :=
          { success := false
            initialScore := initialScore
            finalScore := s.curScore
            iterations := s.iteration
            improvementsApplied := s.applied
            improvementsFailed := s.failed
            stoppingReason := StopReason.fileWriteError
            scoreHistory := s.history }
        writeAttempted := true
        written := none
        breakTag := out.2 }

/-- The whole method including the initial read (lines 94-105): a failed read
returns `success=False`, zero scores and iterations, an empty history and the
`file_read_error` reason, without touching the file. -/
def enhanceRun {α ι ε : Type} (cfg : EnhanceConfig) (comps : Components α ι ε)
    (readResult : Option α) (writeOk : Bool) : RunOutcome α ι ε :=
  match readResult with
  | none =>
    { result :=
        { success := false
          initialScore := 0
          finalScore := 0
          iterations := 0
          improvementsApplied := []
          improvementsFailed := []
          stoppingReason := StopReason.fileReadError
          scoreHistory := [] }
      writeAttempted := false
      written := none
      breakTag := none }
  | some content => enhance cfg comps content writeOk

/-! ## Legacy controller (`src/.sce/tools/ultrawork_enhancer.py`)

`UltraworkEnhancer.enhance_requirements_quality` (lines 28-107).  Its apply
step returns just the new content, and — unlike V3 — the write-back at lines
97-99 is guarded by `if content != original_content`. -/

/-- The `while iteration < self.max_iterations` loop of the legacy enhancer
(lines 58-94): identify first (empty list breaks), apply, increment the
counter, re-score, break on threshold, break when the new score fails to
*strictly* exceed the previous one, else continue with the new score. -/
def legacyGo {α β : Type} (threshold : ℚ) (assess : α → ℚ)
    (identify : α → List β) (applyImps : α → List β → α) :
    ℕ → α → ℚ → ℕ → α × ℕ
  | 0, content, _, iteration => (content, iteration)
  | fuel + 1, content, qualityScore, iteration =>
    let imps := identify content
    if imps.isEmpty then (content, iteration)
    else
      let content' := applyImps content imps
      let iter := iteration + 1
      let newQ := assess content'
      if threshold ≤ newQ then (content', iter)
      else if newQ ≤ qualityScore then (content', iter)
      else legacyGo threshold assess identify applyImps fuel content' newQ iter

/-- Result of one legacy run: final content, iterations, and the content
written back (`none` when the guard `content != original_content` suppressed
the write, or when the early-threshold return at lines 46-53 fired). -/
structure LegacyOutcome (α : Type) where
  finalContent : α
  iterations : ℕ
  written : Option α

/-- `UltraworkEnhancer.enhance_requirements_quality` after a successful read:
early return when the initial score meets the threshold, otherwise the loop
followed by the guarded write-back (lines 96-99). -/
def legacyEnhance {α β : Type} [DecidableEq α] (threshold : ℚ) (maxIter : ℕ)
    (assess : α → ℚ) (identify : α → List β) (applyImps : α → List β → α)
    (content : α) : LegacyOutcome α :=
  let q := assess content
  if threshold ≤ q then
    { finalContent := content, iterations := 0, written := none }
  else
    let out := legacyGo threshold assess identify applyImps maxIter content q 0
    { finalContent := out.1
      iterations := out.2
      written := if out.1 ≠ content then some out.1 else none }

/-! ## Improvement records (`improvement_identifier.py`) -/

/-- The `ImprovementType` enumeration (`improvement_identifier.py` lines 14-26). -/
inductive ImprovementType where
  | addSection
  | enhanceCriteria
  | addNfr
  | addErrorHandling
  | addEdgeCases
  | addGlossaryTerm
  | addComponentDetail
  | addTraceability
  | addProperties
  | addRationale
  | addDiagram
  deriving DecidableEq, Repr

/-- The `Priority` enumeration (lines 29-33). -/
inductive Priority where
  | high
  | medium
  | low
  deriving DecidableEq, Repr

/-- The language tag returned by `DocumentEvaluator._detect_language`:
`'zh'` or `'en'`. -/
inductive Lang where
  | zh
  | en
  deriving DecidableEq, Repr

/-- The metadata dict attached to an `Improvement`.  The only key the
applicator ever reads is `'missing_nfr'` (`modification_applicator.py`
line 210, `improvement.metadata.get('missing_nfr', [])`), so the dict is
modelled by that one list, defaulting to the empty list like the `.get`
fallback. -/
structure MetaData where
  missingNfr : List (List Char) := []
  deriving DecidableEq, Repr

/-- The `Improvement` dataclass (`improvement_identifier.py` lines 36-48). -/
structure Improvement where
  type : ImprovementType
  targetSection : List Char
  description : List Char
  priority : Priority
  template : Option (List Char) := none
  metadata : MetaData := {}
  deriving DecidableEq, Repr

/-- The sort key of `apply_requirements_improvements` line 46:
`0 if priority == 'high' else 1 if 'medium' else 2`. -/
def priorityKey : Priority → ℕ
  | Priority.high => 0
  | Priority.medium => 1
  | Priority.low => 2

/-- Stable insertion of one improvement into an already-sorted list: it goes
in front of the first element with a strictly larger key, so equal-key
elements keep their original relative order. -/
def insertStable (x : Improvement) : List Improvement → List Improvement
  | [] => [x]
  | y :: ys =>
    if priorityKey y.priority ≤ priorityKey x.priority then
      y :: insertStable x ys
    else
      x :: y :: ys

/-- Python's `sorted(improvements, key=...)` — a stable sort: the input is
folded left to right and each improvement is inserted behind the
already-placed improvements whose key is less than or equal to its own, so
equal-priority improvements keep their original relative order, as Timsort
guarantees. -/
def sortByPriority (imps : List Improvement) : List Improvement :=
  imps.foldl (fun acc x => insertStable x acc) []

/-! ## Content Mutator batch loop (`modification_applicator.py`)

`apply_requirements_improvements` (lines 38-99) and
`apply_design_improvements` (lines 101-161) share one shape: sort by
priority, then for each improvement dispatch on `improvement.type.value` to a
strategy inside a `try`, keep the strategy's output only when it differs from
the current content (appending to `applied_improvements`), and record any
raised exception in `failed_improvements` without aborting the batch.  The
loop is embedded over an abstract `dispatch` table so that the `try/except`
behaviour can be stated for arbitrary strategy code; the concrete
requirements/design tables are instantiated further down. -/

/-- Exception values (`Exception` objects are only ever stringified by the
report, so a message string suffices). -/
abbrev PyErr := List Char

/-- A strategy body: Python code that may raise (`Except.error`) or return the
new content. -/
abbrev Strategy (α : Type) := α → Improvement → Except PyErr α

/-- The `ModificationResult` dataclass (lines 13-25); `modification_report`
is a rendered string never read back by the controller and is omitted. -/
structure ModificationResult (α : Type) where
  modifiedContent : α
  appliedImprovements : List Improvement
  failedImprovements : List (Improvement × PyErr)

/-- The `for improvement in improvements_sorted` loop (lines 50-91 / 113-152)
carrying `(modified_content, applied, failed)`.  A category with no `elif`
branch (`dispatch _ = none`) leaves the state untouched; a strategy result
equal to the current content is dropped (`if result != modified_content`);
a raised exception is appended to `failed` and the loop continues. -/
def applyGo {α : Type} [DecidableEq α]
    (dispatch : ImprovementType → Option (Strategy α)) :
    List Improvement → α × List Improvement × List (Improvement × PyErr) →
      α × List Improvement × List (Improvement × PyErr)
  | [], st => st
  | imp :: rest, (content, applied, failed) =>
    match dispatch imp.type with
    | none => applyGo dispatch rest (content, applied, failed)
    | some f =>
      match f content imp with
      | Except.ok result =>
        if result ≠ content then
          applyGo dispatch rest (result, applied ++ [imp], failed)
        else
          applyGo dispatch rest (content, applied, failed)
      | Except.error e =>
        applyGo dispatch rest (content, applied, failed ++ [(imp, e)])

/-- The whole batch call: sort by priority, run the loop from the input
content and empty accumulators, package the `ModificationResult`. -/
def applyBatch {α : Type} [DecidableEq α]
    (dispatch : ImprovementType → Option (Strategy α))
    (content : α) (imps : List Improvement) : ModificationResult α :=
  let out := applyGo dispatch (sortByPriority imps) (content, [], [])
  { modifiedContent := out.1
    appliedImprovements := out.2.1
    failedImprovements := out.2.2 }

/-! ## String primitives

Documents are `List Char`.  These mirror the Python string operations used by
the applicator: `str.rstrip()`, `str.split('\n')`, `'\n'.join`, substring
membership (`in`), `str.lower()`, `str.title()`, and the handful of regex
shapes that occur (first occurrence of one of a list of literal alternatives,
optionally case-insensitive, and two digit-pattern heading matchers). -/

/-- The ASCII whitespace stripped by `str.rstrip()` (the sources only ever
contain these whitespace characters). -/
def isPyWs (c : Char) : Bool :=
  c = ' ' || c = '\t' || c = '\n' || c = '\r' || c = '\x0b' || c = '\x0c'

/-- `content.rstrip()`: drop the maximal whitespace suffix. -/
def pyRstrip (s : List Char) : List Char :=
  (s.reverse.dropWhile isPyWs).reverse

/-- `content.split('\n')`.  Like Python, splitting the empty string yields
`[""]`, and a trailing newline yields a trailing empty segment. -/
def splitLines : List Char → List (List Char)
  | [] => [[]]
  | c :: t =>
    if c = '\n' then [] :: splitLines t
    else
      match splitLines t with
      | l :: ls => (c :: l) :: ls
      | [] => [[c]]

/-- `'\n'.join(lines)`. -/
def joinLines : List (List Char) → List Char
  | [] => []
  | [l] => l
  | l :: ls => l ++ '\n' :: joinLines ls

/-- Python substring membership `needle in hay`. -/
def containsSub : List Char → List Char → Bool
  | [], needle => needle.isEmpty
  | hay@(_ :: t), needle => needle.isPrefixOf hay || containsSub t needle

/-- ASCII `str.lower()` on one character (all case-folded comparisons in the
sources involve only ASCII letters). -/
def asciiLower (c : Char) : Char :=
  if decide ('A' ≤ c) && decide (c ≤ 'Z') then Char.ofNat (c.toNat + 32) else c

/-- ASCII `str.upper()` on one character. -/
def asciiUpper (c : Char) : Char :=
  if decide ('a' ≤ c) && decide (c ≤ 'z') then Char.ofNat (c.toNat - 32) else c

/-- `content.lower()`. -/
def lowerAll (s : List Char) : List Char := s.map asciiLower

/-- An ASCII letter. -/
def isAsciiAlpha (c : Char) : Bool :=
  (decide ('a' ≤ c) && decide (c ≤ 'z')) || (decide ('A' ≤ c) && decide (c ≤ 'Z'))

/-- `str.title()` worker; the flag says whether the previous character was a
letter. -/
def pyTitleGo : Bool → List Char → List Char
  | _, [] => []
  | prev, c :: t =>
    (if isAsciiAlpha c then (if prev then asciiLower c else asciiUpper c) else c) ::
      pyTitleGo (isAsciiAlpha c) t

/-- Python `str.title()` (uppercase each letter that follows a non-letter,
lowercase the rest). -/
def pyTitle (s : List Char) : List Char := pyTitleGo false s

/-- One-character comparison under `re.IGNORECASE`: the pattern character `p`
matches the text character `c` exactly, or up to ASCII case. -/
def ciCharEq (p c : Char) : Bool :=
  p == c ||
  (decide ('A' ≤ p) && decide (p ≤ 'Z') && (c.toNat == p.toNat + 32)) ||
  (decide ('a' ≤ p) && decide (p ≤ 'z') && (c.toNat + 32 == p.toNat))

/-- Case-insensitive "pattern is a prefix of text". -/
def ciMatchesAt : List Char → List Char → Bool
  | [], _ => true
  | _ :: _, [] => false
  | p :: ps, c :: cs => ciCharEq p c && ciMatchesAt ps cs

/-- A literal alternative `n` matches at the head of `s`, case-sensitively or
(for a pattern compiled with `re.IGNORECASE`) case-insensitively. -/
def altAt (ci : Bool) (n s : List Char) : Bool :=
  if ci then ciMatchesAt n s else n.isPrefixOf s

/-- Leftmost match of a regex alternation of literals: splits `s` as
`x ++ y` where `y` is the first suffix at which one of `alts` matches
(alternatives are tried in the pattern's order at each position, scanning left
to right like `re.search`). -/
def splitAtFirstAlt (ci : Bool) (alts : List (List Char)) :
    List Char → Option (List Char × List Char)
  | [] => if alts.any (fun n => altAt ci n []) then some ([], []) else none
  | c :: t =>
    if alts.any (fun n => altAt ci n (c :: t)) then some ([], c :: t)
    else (splitAtFirstAlt ci alts t).map (fun p => (c :: p.1, p.2))

/-- Length of the first alternative matching at `y` (i.e. the length of the
group the regex engine captured there). -/
def matchedAltLen (ci : Bool) (alts : List (List Char)) (y : List Char) : ℕ :=
  match alts with
  | [] => 0
  | n :: rest => if altAt ci n y then n.length else matchedAltLen ci rest y

/-- The span pattern `(START.*?)(END₁|END₂|\Z)` with `re.DOTALL` that the
applicator uses to find `match.end(1)`: locate the leftmost start literal,
then the first end literal after it, and split there; when no end literal
follows, group 1 reaches the end of the document (`\Z`), giving
`some (s, [])`.  Returns `none` when no start literal occurs (the regex fails
to match). -/
def splitSpan (ci : Bool) (startAlts endAlts : List (List Char))
    (s : List Char) : Option (List Char × List Char) :=
  match splitAtFirstAlt ci startAlts s with
  | none => none
  | some (x, y) =>
    let a := matchedAltLen ci startAlts y
    match splitAtFirstAlt ci endAlts (y.drop a) with
    | none => some (s, [])
    | some (m, z) => some (x ++ y.take a ++ m, z)

/-- Consume everything through the first `'\n'` (the trailing `[^\n]*\n` /
`[^\n]+\n` part of the heading patterns, which always ends just after a
newline). -/
def restAfterNl : List Char → Option (List Char)
  | [] => none
  | c :: t => if c = '\n' then some t else restAfterNl t

/-- Consume `\d+` (at least one digit, then the maximal run). -/
def consumeDigits : List Char → Option (List Char)
  | c :: t => if c.isDigit then some (t.dropWhile Char.isDigit) else none
  | [] => none

/-- Consume `\d+\.\d+`. -/
def consumeNumPair (s : List Char) : Option (List Char) :=
  match consumeDigits s with
  | none => none
  | some r =>
    match r with
    | '.' :: r2 => consumeDigits r2
    | _ => none

/-- Match of `### (?:Requirement )?\d+\.\d+[^\n]*\n`
(`_enhance_acceptance_criteria`, line 241) at the head of `s`, returning the
rest after the match.  The regex tries the optional `Requirement ` greedily;
when that prefix is present the alternative without it starts at `R`, which is
not a digit, so backtracking can never succeed and the greedy choice is
exact. -/
def reqHeadingAt (s : List Char) : Option (List Char) :=
  if ("### ".toList).isPrefixOf s then
    let r := s.drop 4
    let r2 := if ("Requirement ".toList).isPrefixOf r then r.drop 12 else r
    match consumeNumPair r2 with
    | some r3 => restAfterNl r3
    | none => none
  else none

/-- Match of `### \d+\.\d+ [^\n]+\n` (`_add_requirements_traceability`,
line 419) at the head of `s`. -/
def compHeadingAt (s : List Char) : Option (List Char) :=
  if ("### ".toList).isPrefixOf s then
    match consumeNumPair (s.drop 4) with
    | some (c0 :: r) =>
      if c0 = ' ' then
        match r with
        | [] => none
        | c :: t => if c = '\n' then none else restAfterNl t
      else none
    | _ => none
  else none

/-- Leftmost position at which `matchAt` succeeds, returning the rest after
the match. -/
def findRest (matchAt : List Char → Option (List Char)) :
    List Char → Option (List Char)
  | [] => matchAt []
  | c :: t =>
    match matchAt (c :: t) with
    | some r => some r
    | none => findRest matchAt t

/-- `re.search` for a heading matcher: split `s` as `x ++ y` where `x` ends
with the leftmost match (`x` is `content[:match.end()]`). -/
def scanSplit (matchAt : List Char → Option (List Char)) (s : List Char) :
    Option (List Char × List Char) :=
  match findRest matchAt s with
  | some r => some (s.take (s.length - r.length), r)
  | none => none

/-! ## Templates (`modification_applicator.py` lines 437-704) -/

/-- The `templates` dict of `_get_template` (lines 441-540); unknown names map
to the empty string (`templates.get(template_name, '')`).  The `language`
parameter of `_get_template` is ignored by the Python code (keys carry their
own `_zh`/`_en` suffix). -/
def getTemplate (name : List Char) : List Char :=
  if name = "introduction_zh".toList then
    ("## 1. 概述\n\n本文档描述了系统的需求规格说明。\n\n### 1.1 项目背景\n[待补充项目背景信息]\n\n### 1.2 项目目标\n[待补充项目目标]\n").toList
  else if name = "introduction_en".toList then
    ("## Introduction\n\nThis document describes the system requirements specification.\n\n### Project Background\n[To be filled with project background information]\n\n### Project Goals\n[To be filled with project goals]\n").toList
  else if name = "overview_zh".toList then
    ("## 1. 系统概述\n\n本设计文档描述了系统的架构和组件设计。\n\n### 1.1 设计目标\n- 模块化设计，易于维护和扩展\n- 高性能，满足业务需求\n- 安全可靠，保障数据安全\n\n### 1.2 设计方法\n采用分层架构，将系统划分为表示层、业务逻辑层和数据访问层。\n").toList
  else if name = "overview_en".toList then
    ("## Overview\n\nThis design document describes the system architecture and component design.\n\n### Design Goals\n- Modular design for easy maintenance and extension\n- High performance to meet business requirements\n- Secure and reliable to ensure data safety\n\n### Design Approach\nAdopts layered architecture, dividing the system into presentation layer, business logic layer, and data access layer.\n").toList
  else if name = "architecture_zh".toList then
    ("## 2. 架构设计\n\n### 2.1 系统架构\n\n系统采用三层架构设计：\n\n```mermaid\ngraph TB\n    A[表示层] --> B[业务逻辑层]\n    B --> C[数据访问层]\n    C --> D[数据存储]\n```\n\n### 2.2 架构说明\n- **表示层**: 负责用户界面和交互\n- **业务逻辑层**: 处理核心业务逻辑\n- **数据访问层**: 封装数据库操作\n").toList
  else if name = "architecture_en".toList then
    ("## Architecture\n\n### System Architecture\n\nThe system adopts a three-tier architecture:\n\n```mermaid\ngraph TB\n    A[Presentation Layer] --> B[Business Logic Layer]\n    B --> C[Data Access Layer]\n    C --> D[Data Storage]\n```\n\n### Architecture Description\n- **Presentation Layer**: Handles user interface and interaction\n- **Business Logic Layer**: Processes core business logic\n- **Data Access Layer**: Encapsulates database operations\n").toList
  else if name = "components_zh".toList then
    ("## 3. 组件设计\n\n### 3.1 组件概述\n系统包含以下核心组件：\n- 用户管理组件\n- 数据处理组件\n- 接口服务组件\n").toList
  else if name = "components_en".toList then
    ("## Components\n\n### Component Overview\nThe system includes the following core components:\n- User Management Component\n- Data Processing Component\n- Interface Service Component\n").toList
  else []

/-- `_get_nfr_template` (lines 542-581). -/
def nfrTemplate (lang : Lang) : List Char :=
  match lang with
  | Lang.zh =>
    ("## 4. 非功能需求\n\n### 4.1 性能需求\n- 系统响应时间应小于 2 秒\n- 支持并发用户数不少于 100\n\n### 4.2 安全需求\n- 用户数据必须加密存储\n- 实施访问控制和身份验证\n\n### 4.3 可用性需求\n- 系统可用性应达到 99.9%\n- 提供友好的用户界面\n\n### 4.4 可维护性需求\n- 代码应遵循编码规范\n- 提供完整的技术文档\n").toList
  | Lang.en =>
    ("## Non-functional Requirements\n\n### Performance Requirements\n- System response time should be less than 2 seconds\n- Support at least 100 concurrent users\n\n### Security Requirements\n- User data must be encrypted at rest\n- Implement access control and authentication\n\n### Usability Requirements\n- System availability should reach 99.9%\n- Provide user-friendly interface\n\n### Maintainability Requirements\n- Code should follow coding standards\n- Provide complete technical documentation\n").toList

/-- `_get_error_handling_template` (lines 583-604). -/
def errorHandlingTemplate (lang : Lang) : List Char :=
  match lang with
  | Lang.zh =>
    ("### 错误处理需求\n\n**用户故事**: 作为用户，我希望系统能够优雅地处理错误，以便我了解问题并采取相应措施。\n\n**验收标准**:\n1. WHEN 系统遇到错误 THEN 系统应该显示清晰的错误消息\n2. WHEN 发生异常 THEN 系统应该记录错误日志\n3. WHEN 出现致命错误 THEN 系统应该安全关闭并保存数据\n").toList
  | Lang.en =>
    ("### Error Handling Requirements\n\n**User Story**: As a user, I want the system to handle errors gracefully, so that I understand the issue and can take appropriate action.\n\n**Acceptance Criteria**:\n1. WHEN the system encounters an error THEN THE system SHALL display a clear error message\n2. WHEN an exception occurs THEN THE system SHALL log the error\n3. WHEN a fatal error occurs THEN THE system SHALL shut down safely and save data\n").toList

/-- `_get_glossary_template` (lines 606-621). -/
def glossaryTemplate (lang : Lang) : List Char :=
  match lang with
  | Lang.zh =>
    ("## 术语表\n\n- **系统**: 指本文档描述的软件系统\n- **用户**: 使用系统的最终用户\n- **管理员**: 具有系统管理权限的用户\n").toList
  | Lang.en =>
    ("## Glossary\n\n- **System**: The software system described in this document\n- **User**: End user who uses the system\n- **Administrator**: User with system administration privileges\n").toList

/-- `_get_architecture_diagram_template` (lines 623-644). -/
def archDiagramTemplate (lang : Lang) : List Char :=
  match lang with
  | Lang.zh =>
    ("### 系统架构图\n\n```mermaid\ngraph TB\n    A[用户界面] --> B[业务逻辑层]\n    B --> C[数据访问层]\n    C --> D[数据存储]\n```\n").toList
  | Lang.en =>
    ("### System Architecture Diagram\n\n```mermaid\ngraph TB\n    A[User Interface] --> B[Business Logic Layer]\n    B --> C[Data Access Layer]\n    C --> D[Data Storage]\n```\n").toList

/-- `_get_technology_stack_template` (lines 646-675). -/
def techStackTemplate (lang : Lang) : List Char :=
  match lang with
  | Lang.zh =>
    ("## 技术选型\n\n### 核心技术栈\n- **前端**: React/Vue.js\n- **后端**: Node.js/Python\n- **数据库**: PostgreSQL/MongoDB\n- **缓存**: Redis\n\n### 选型理由\n- 考虑团队技术栈熟悉度\n- 满足性能和扩展性要求\n- 社区支持和生态完善\n").toList
  | Lang.en =>
    ("## Technology Stack\n\n### Core Technologies\n- **Frontend**: React/Vue.js\n- **Backend**: Node.js/Python\n- **Database**: PostgreSQL/MongoDB\n- **Cache**: Redis\n\n### Selection Rationale\n- Team familiarity with technology stack\n- Meets performance and scalability requirements\n- Strong community support and ecosystem\n").toList

/-- `_get_correctness_properties_template` (lines 677-704). -/
def correctnessTemplate (lang : Lang) : List Char :=
  match lang with
  | Lang.zh =>
    ("## 正确性属性\n\n### 属性 1: 数据一致性\n*对于任何*数据操作，操作完成后数据应保持一致状态。\n\n**验证**: Requirements 1.1, 1.2\n\n### 属性 2: 操作幂等性\n*对于任何*幂等操作，多次执行应产生相同结果。\n\n**验证**: Requirements 2.1\n").toList
  | Lang.en =>
    ("## Correctness Properties\n\n### Property 1: Data Consistency\n*For any* data operation, data should remain in a consistent state after the operation completes.\n\n**Validates**: Requirements 1.1, 1.2\n\n### Property 2: Operation Idempotency\n*For any* idempotent operation, multiple executions should produce the same result.\n\n**Validates**: Requirements 2.1\n").toList

/-- The acceptance-criteria example inserted by `_enhance_acceptance_criteria`
(lines 249-260); begins and ends with a newline. -/
def acExample (lang : Lang) : List Char :=
  match lang with
  | Lang.zh =>
    ("\n**验收标准**:\n1. WHEN 用户执行操作 THEN 系统应该返回预期结果\n2. WHEN 输入无效数据 THEN 系统应该显示错误提示\n").toList
  | Lang.en =>
    ("\n#### Acceptance Criteria\n1. WHEN the user performs an action THEN THE system SHALL return the expected result\n2. WHEN invalid data is provided THEN THE system SHALL display an error message\n").toList

/-- The edge-case bullets of `_add_edge_case_criteria` (lines 297-300);
begins with a newline, no trailing newline. -/
def edgeAddition (lang : Lang) : List Char :=
  match lang with
  | Lang.zh =>
    ("\n- WHEN 输入为空值 THEN 系统应该处理空值情况\n- WHEN 输入达到最大限制 THEN 系统应该正确处理边界值").toList
  | Lang.en =>
    ("\n- WHEN input is empty THEN THE system SHALL handle empty values\n- WHEN input reaches maximum limit THEN THE system SHALL handle boundary values correctly").toList

/-- The example component of `_add_component_details` (lines 378-411);
begins with two newlines. -/
def componentAddition (lang : Lang) : List Char :=
  match lang with
  | Lang.zh =>
    ("\n\n### 3.1 核心组件\n\n**职责**: 处理核心业务逻辑\n\n**接口定义**:\n```python\nclass CoreComponent:\n    def process(self, data: dict) -> dict:\n        \"\"\"处理数据\"\"\"\n        pass\n```\n\n**依赖**: 无外部依赖\n").toList
  | Lang.en =>
    ("\n\n### 3.1 Core Component\n\n**Responsibility**: Handle core business logic\n\n**Interface Definition**:\n```python\nclass CoreComponent:\n    def process(self, data: dict) -> dict:\n        \"\"\"Process data\"\"\"\n        pass\n```\n\n**Dependencies**: No external dependencies\n").toList

/-- The traceability annotation of `_add_requirements_traceability`
(line 427). -/
def traceAddition : List Char :=
  ("\n**Validates: Requirements 1.1, 1.2**\n").toList

/-! ## Concrete insertion strategies (`modification_applicator.py`) -/

/-- `improvement.template or section_name` (line 168): Python `or` takes the
section name when the template attribute is `None` or the empty string. -/
def templateNameOf (imp : Improvement) : List Char :=
  match imp.template with
  | some t => if t.isEmpty then imp.targetSection else t
  | none => imp.targetSection

/-- The introductory section names of line 178. -/
def introSectionNames : List (List Char) :=
  ["概述".toList, "Introduction".toList, "Overview".toList]

/-- `_add_section_to_requirements` (lines 165-195).  The `约束条件/Constraints`
branch (line 189) and the default branch have the same body
(`content.rstrip() + '\n\n' + template`) and are merged here. -/
def addSectionToRequirements (content : List Char) (imp : Improvement)
    (lang : Lang) : List Char :=
  let sectionName := imp.targetSection
  let template := getTemplate (templateNameOf imp)
  if template.isEmpty then content
  else if containsSub content sectionName ||
      (lang = Lang.en && containsSub (lowerAll content) (lowerAll sectionName)) then
    content
  else if sectionName ∈ introSectionNames then
    -- lines = content.split('\n'); insert '\n' + template after the first
    -- line starting with '# ' (position 0 when there is none); '\n'.join
    let ls := splitLines content
    let pos :=
      match ls.findIdx? (fun l => ("# ".toList).isPrefixOf l) with
      | some i => i + 1
      | none => 0
    joinLines (ls.take pos ++ [('\n' :: template)] ++ ls.drop pos)
  else
    pyRstrip content ++ ('\n' :: '\n' :: template)

/-- The alternatives of the regex
`(## (?:4\. )?非功能需求|## Non-functional Requirements)` (line 215), in the
order the engine tries them at each position. -/
def nfrPatAlts : List (List Char) :=
  ["## 4. 非功能需求".toList, "## 非功能需求".toList,
   "## Non-functional Requirements".toList]

/-- `_append_to_nfr_section` (lines 208-236): locate the non-functional
section heading (case-insensitively), then the next `'\n## '` after it (the
insertion point, or end of document), and splice in at most three
`missing_nfr` entries, each rendered as a `### ` sub-heading block starting
with a newline. -/
def appendToNfrSection (content : List Char) (imp : Improvement)
    (lang : Lang) : List Char :=
  let missing := imp.metadata.missingNfr
  if missing.isEmpty then content
  else
    match splitAtFirstAlt true nfrPatAlts content with
    | none => content
    | some (x, y) =>
      let a := matchedAltLen true nfrPatAlts y
      let additions := (missing.take 3).flatMap (fun nfr =>
        if lang = Lang.zh then
          ("\n### ".toList) ++ nfr ++ ("\n- 待补充具体".toList) ++ nfr ++ ("要求\n".toList)
        else
          ("\n### ".toList) ++ pyTitle nfr ++ (" Requirements\n- To be specified\n".toList))
      match splitAtFirstAlt true ["\n## ".toList] (y.drop a) with
      | some (m, z) => x ++ y.take a ++ m ++ additions ++ z
      | none => content ++ additions

/-- `_add_nfr_section` (lines 197-206). -/
def addNfrSection (content : List Char) (imp : Improvement)
    (lang : Lang) : List Char :=
  if containsSub content ("## 4. 非功能需求".toList) ||
      containsSub content ("## Non-functional Requirements".toList) then
    appendToNfrSection content imp lang
  else
    pyRstrip content ++ ('\n' :: '\n' :: nfrTemplate lang)

/-- `_enhance_acceptance_criteria` (lines 238-263): insert the example block
right after the first requirement heading; unchanged when the pattern does
not match. -/
def enhanceAcceptanceCriteria (content : List Char) (_imp : Improvement)
    (lang : Lang) : List Char :=
  match scanSplit reqHeadingAt content with
  | none => content
  | some (x, y) => x ++ acExample lang ++ y

/-- The end-of-span alternative `\n## ` shared by several patterns. -/
def sectionEndAlts : List (List Char) := ["\n## ".toList]

/-- The end-of-span alternatives `(\n### |\n## |\Z)`. -/
def subsectionEndAlts : List (List Char) := ["\n### ".toList, "\n## ".toList]

/-- `_add_error_handling_requirements` (lines 265-281): insert
`'\n\n' + template` at the end of the functional-requirements span, falling
back to `content.rstrip() + '\n\n' + template` when the section is absent. -/
def addErrorHandlingRequirements (content : List Char) (_imp : Improvement)
    (lang : Lang) : List Char :=
  let template := errorHandlingTemplate lang
  let startAlts :=
    if lang = Lang.zh then ["## 3. 功能需求".toList]
    else ["## Functional Requirements".toList, "## Requirements".toList]
  match splitSpan false startAlts sectionEndAlts content with
  | some (x, y) => x ++ ('\n' :: '\n' :: template) ++ y
  | none => pyRstrip content ++ ('\n' :: '\n' :: template)

/-- `_add_edge_case_criteria` (lines 283-303): insert the edge-case bullets at
the end of the first acceptance-criteria span; unchanged when the pattern does
not match. -/
def addEdgeCaseCriteria (content : List Char) (_imp : Improvement)
    (lang : Lang) : List Char :=
  let startAlts :=
    if lang = Lang.zh then ["**验收标准**:".toList]
    else ["#### Acceptance Criteria".toList]
  match splitSpan false startAlts subsectionEndAlts content with
  | some (x, y) => x ++ edgeAddition lang ++ y
  | none => content

/-- `_add_glossary_section` (lines 305-321): insert `'\n\n' + template` after
the introduction span (pattern compiled with `re.DOTALL | re.IGNORECASE`),
falling back to an rstrip-append. -/
def addGlossarySection (content : List Char) (_imp : Improvement)
    (lang : Lang) : List Char :=
  let template := glossaryTemplate lang
  let startAlts :=
    if lang = Lang.zh then ["## 1. 概述".toList, "## 概述".toList]
    else ["## Introduction".toList, "## Overview".toList]
  match splitSpan true startAlts sectionEndAlts content with
  | some (x, y) => x ++ ('\n' :: '\n' :: template) ++ y
  | none => pyRstrip content ++ ('\n' :: '\n' :: template)

/-- `_add_section_to_design` (lines 325-338). -/
def addSectionToDesign (content : List Char) (imp : Improvement)
    (_lang : Lang) : List Char :=
  let template := getTemplate (templateNameOf imp)
  if template.isEmpty then content
  else if containsSub content imp.targetSection then content
  else pyRstrip content ++ ('\n' :: '\n' :: template)

/-- `_add_architecture_diagram` (lines 340-356); pattern compiled with
`re.DOTALL | re.IGNORECASE`. -/
def addArchitectureDiagram (content : List Char) (_imp : Improvement)
    (lang : Lang) : List Char :=
  let template := archDiagramTemplate lang
  let startAlts :=
    if lang = Lang.zh then ["## 2. 架构设计".toList, "## 架构设计".toList]
    else ["## System Architecture".toList, "## Architecture".toList]
  match splitSpan true startAlts subsectionEndAlts content with
  | some (x, y) => x ++ ('\n' :: '\n' :: template) ++ y
  | none => pyRstrip content ++ ('\n' :: '\n' :: template)

/-- `_add_technology_stack` (lines 358-361): unconditional rstrip-append. -/
def addTechnologyStack (content : List Char) (_imp : Improvement)
    (lang : Lang) : List Char :=
  pyRstrip content ++ ('\n' :: '\n' :: techStackTemplate lang)

/-- `_add_component_details` (lines 363-414): insert the example component at
the end of the components span; unchanged when the section is absent. -/
def addComponentDetails (content : List Char) (_imp : Improvement)
    (lang : Lang) : List Char :=
  let startAlts :=
    if lang = Lang.zh then ["## 3. 组件设计".toList, "## 组件设计".toList]
    else ["## Components".toList]
  match splitSpan true startAlts sectionEndAlts content with
  | some (x, y) => x ++ componentAddition lang ++ y
  | none => content

/-- `_add_requirements_traceability` (lines 416-430): insert the annotation
after the first component heading (`requirements_content` is accepted but
never used by the body). -/
def addRequirementsTraceability (content : List Char) (_imp : Improvement)
    (_reqContent : List Char) (_lang : Lang) : List Char :=
  match scanSplit compHeadingAt content with
  | none => content
  | some (x, y) => x ++ traceAddition ++ y

/-- `_add_correctness_properties` (lines 432-435). -/
def addCorrectnessProperties (content : List Char) (_imp : Improvement)
    (lang : Lang) : List Char :=
  pyRstrip content ++ ('\n' :: '\n' :: correctnessTemplate lang)

/-- The `elif improvement.type.value == ...` dispatch chain of
`apply_requirements_improvements` (lines 53-87).  Categories with no branch
(`add_component_detail`, `add_traceability`, `add_properties`,
`add_rationale`, `add_diagram`) map to `none`: the loop body simply skips
them.  The concrete strategies are total Python code, so they are wrapped in
`Except.ok`. -/
def reqDispatch (lang : Lang) : ImprovementType → Option (Strategy (List Char))
  | ImprovementType.addSection =>
    some (fun c imp => Except.ok (addSectionToRequirements c imp lang))
  | ImprovementType.addNfr =>
    some (fun c imp => Except.ok (addNfrSection c imp lang))
  | ImprovementType.enhanceCriteria =>
    some (fun c imp => Except.ok (enhanceAcceptanceCriteria c imp lang))
  | ImprovementType.addErrorHandling =>
    some (fun c imp => Except.ok (addErrorHandlingRequirements c imp lang))
  | ImprovementType.addEdgeCases =>
    some (fun c imp => Except.ok (addEdgeCaseCriteria c imp lang))
  | ImprovementType.addGlossaryTerm =>
    some (fun c imp => Except.ok (addGlossarySection c imp lang))
  | _ => none

/-- `ModificationApplicator.apply_requirements_improvements`
(lines 38-99). -/
def applyRequirementsImprovements (content : List Char)
    (imps : List Improvement) (lang : Lang) : ModificationResult (List Char) :=
  applyBatch (reqDispatch lang) content imps

/-- The dispatch chain of `apply_design_improvements` (lines 115-149).
Categories with no branch (`enhance_criteria`, `add_nfr`,
`add_error_handling`, `add_edge_cases`, `add_glossary_term`) map to
`none`. -/
def designDispatch (reqContent : List Char) (lang : Lang) :
    ImprovementType → Option (Strategy (List Char))
  | ImprovementType.addSection =>
    some (fun c imp => Except.ok (addSectionToDesign c imp lang))
  | ImprovementType.addDiagram =>
    some (fun c imp => Except.ok (addArchitectureDiagram c imp lang))
  | ImprovementType.addRationale =>
    some (fun c imp => Except.ok (addTechnologyStack c imp lang))
  | ImprovementType.addComponentDetail =>
    some (fun c imp => Except.ok (addComponentDetails c imp lang))
  | ImprovementType.addTraceability =>
    some (fun c imp => Except.ok (addRequirementsTraceability c imp reqContent lang))
  | ImprovementType.addProperties =>
    some (fun c imp => Except.ok (addCorrectnessProperties c imp lang))
  | _ => none

/-- `ModificationApplicator.apply_design_improvements` (lines 101-161). -/
def applyDesignImprovements (content : List Char) (imps : List Improvement)
    (reqContent : List Char) (lang : Lang) : ModificationResult (List Char) :=
  applyBatch (designDispatch reqContent lang) content imps

/-! ## Scoring Model (`document_evaluator.py`)

`assess_requirements_quality` (lines 53-258) derives each criterion sub-score
from counts and membership checks computed by `re.findall` / `in` over the
document.  The arithmetic is embedded as a function of those measurements
(`ReqSignals`); the claims proved about it hold for every value the regex
layer could produce. -/

/-- The measurements the zh branch (lines 64-153) and the en branch
(lines 154-249) of `assess_requirements_quality` extract from the document:
four structure-heading checks, the `re.findall` counts for EARS patterns,
user stories, acceptance criteria and `### `-numbered requirements, the
non-functional keyword coverage, and the constraints-mention check. -/
structure ReqSignals where
  hasSec1 : Bool
  hasSec2 : Bool
  hasSec3 : Bool
  hasSec4 : Bool
  earsCount : ℕ
  userStoryCount : ℕ
  acceptanceCount : ℕ
  requirementsCount : ℕ
  nfrCoverage : ℕ
  hasConstraints : Bool

/-- The entries of `criteria_scores` filled by `assess_requirements_quality`,
together with the final clipped `score` (line 252). -/
structure QAScores where
  structureScore : ℚ
  earsFormat : ℚ
  userStories : ℚ
  acceptanceCriteria : ℚ
  nfrCoverage : ℚ
  constraints : ℚ
  score : ℚ

/-- The sum of the six criterion sub-scores. -/
def criteriaSum (q : QAScores) : ℚ :=
  q.structureScore + q.earsFormat + q.userStories + q.acceptanceCriteria +
    q.nfrCoverage + q.constraints

/-- The score arithmetic of `assess_requirements_quality`: per-criterion
saturating sub-scores (zh unit values 0.15 / 0.25 / 0.3 / 0.17, en unit
values 0.12 / 0.2 / 0.25 / 0.14), the acceptance ratio path when any
numbered requirement exists, and the final `min(score, 10.0)`. -/
def assessRequirementsScore (lang : Lang) (sig : ReqSignals) : QAScores :=
  match lang with
  | Lang.zh =>
    let structureScore :=
      (if sig.hasSec1 then (0.5 : ℚ) else 0) + (if sig.hasSec2 then 0.5 else 0) +
        (if sig.hasSec3 then 0.5 else 0) + (if sig.hasSec4 then 0.5 else 0)
    let earsScore := min ((sig.earsCount : ℚ) * 0.15) 2
    let userStoryScore := min ((sig.userStoryCount : ℚ) * 0.25) 2
    let acceptanceScore :=
      if 0 < sig.requirementsCount then
        min ((sig.acceptanceCount : ℚ) / (sig.requirementsCount : ℚ) * 2) 2
      else
        min ((sig.acceptanceCount : ℚ) * 0.3) 2
    let nfrScore := min ((sig.nfrCoverage : ℚ) * 0.17) 1
    let constraintsScore := if sig.hasConstraints then (1 : ℚ) else 0
    { structureScore := structureScore
      earsFormat := earsScore
      userStories := userStoryScore
      acceptanceCriteria := acceptanceScore
      nfrCoverage := nfrScore
      constraints := constraintsScore
      score := min (structureScore + earsScore + userStoryScore +
        acceptanceScore + nfrScore + constraintsScore) 10 }
  | Lang.en =>
    let structureScore :=
      (if sig.hasSec1 then (0.5 : ℚ) else 0) + (if sig.hasSec2 then 0.5 else 0) +
        (if sig.hasSec3 then 0.5 else 0) + (if sig.hasSec4 then 0.5 else 0)
    let earsScore := min ((sig.earsCount : ℚ) * 0.12) 2
    let userStoryScore := min ((sig.userStoryCount : ℚ) * 0.2) 2
    let acceptanceScore :=
      if 0 < sig.requirementsCount then
        min ((sig.acceptanceCount : ℚ) / (sig.requirementsCount : ℚ) * 2) 2
      else
        min ((sig.acceptanceCount : ℚ) * 0.25) 2
    let nfrScore := min ((sig.nfrCoverage : ℚ) * 0.14) 1
    let constraintsScore := if sig.hasConstraints then (1 : ℚ) else 0
    { structureScore := structureScore
      earsFormat := earsScore
      userStories := userStoryScore
      acceptanceCriteria := acceptanceScore
      nfrCoverage := nfrScore
      constraints := constraintsScore
      score := min (structureScore + earsScore + userStoryScore +
        acceptanceScore + nfrScore + constraintsScore) 10 }

/-! ## Quality-gate CLIs

`workflow_quality_gate.py` documents the exit-code convention (its docstring,
lines 23-27: `0` passed, `1` failed, `2` error) and wraps everything after the
argument/file checks in `try: ... except Exception: exit(2)`.
`quality_gate_enforcer.py`'s own `main` (lines 171-203) exits `1` on bad
arguments and maps `passed` to `0`/`1`.  Both construct `QualityGateEnforcer`,
whose `__init__` (lines 47-53) forwards `create_backups=True` and
`cleanup_backups_on_success=True` to `UltraworkEnhancerV3.__init__`
(`ultrawork_enhancer_v3.py` lines 42-46), which has no such parameters — in
CPython that call raises
`TypeError: __init__() got an unexpected keyword argument`. -/

/-- The keyword parameters accepted by `UltraworkEnhancerV3.__init__`
(`ultrawork_enhancer_v3.py` lines 42-46). -/
def v3InitParams : List String :=
  ["quality_threshold", "max_iterations", "plateau_iterations",
   "min_score_improvement"]

/-- The keyword arguments `QualityGateEnforcer.__init__` passes to
`UltraworkEnhancerV3` (`quality_gate_enforcer.py` lines 47-53). -/
def gateEnforcerInitKwargs : List String :=
  ["quality_threshold", "max_iterations", "plateau_iterations",
   "create_backups", "cleanup_backups_on_success"]

/-- CPython raises `TypeError` iff some keyword argument of the call is not a
parameter of the callee. -/
def gateConstructionRaises : Bool :=
  gateEnforcerInitKwargs.any (fun k => !(v3InitParams.contains k))

/-- Constructing `QualityGateEnforcer()`: `Except.error` models the
`TypeError` raised while building its `UltraworkEnhancerV3`. -/
def constructGateEnforcer : Except (List Char) Unit :=
  if gateConstructionRaises then
    Except.error ("TypeError: unexpected keyword argument create_backups".toList)
  else Except.ok ()

/-- `workflow_quality_gate.py main` (lines 28-96) as a function from the
argument vector, the file-existence oracle and the pass/fail outcome of a
(hypothetically successful) gate check to the process exit code: fewer than 3
arguments → 2, document missing → 2, a raised exception (in particular the
enforcer-construction `TypeError`) → 2, unknown stage → 2, missing design
companion argument or file → 2, otherwise 0 for pass and 1 for fail. -/
def workflowGateMain (argv : List String) (fileExists : String → Bool)
    (gatePassed : String → String → Bool) : ℕ :=
  if argv.length < 3 then 2
  else
    let stage := (argv.getD 1 "").toLower
    let docPath := argv.getD 2 ""
    if !(fileExists docPath) then 2
    else
      match constructGateEnforcer with
      | Except.error _ => 2
      | Except.ok _ =>
        if stage == "requirements" then
          if gatePassed stage docPath then 0 else 1
        else if stage == "design" then
          if argv.length < 4 then 2
          else if !(fileExists (argv.getD 3 "")) then 2
          else if gatePassed stage docPath then 0 else 1
        else if stage == "tasks" then
          if gatePassed stage docPath then 0 else 1
        else 2

/-- `quality_gate_enforcer.py main` (lines 171-203): fewer than 3 arguments →
`sys.exit(1)`; then `QualityGateEnforcer()` is constructed (line 186) — when
that raises, the uncaught exception terminates CPython with exit status 1 —
then dispatch (unknown gate → 1, `design` without a requirements path → 1),
finally `sys.exit(0 if result.passed else 1)`. -/
def enforcerGateMain (argv : List String) (gatePassed : String → String → Bool) : ℕ :=
  if argv.length < 3 then 1
  else
    match constructGateEnforcer with
    | Except.error _ => 1
    | Except.ok _ =>
      let gate := argv.getD 1 ""
      let docPath := argv.getD 2 ""
      if gate == "requirements" then
        if gatePassed gate docPath then 0 else 1
      else if gate == "design" then
        if argv.length < 4 then 1
        else if gatePassed gate docPath then 0 else 1
      else if gate == "tasks" then
        if gatePassed gate docPath then 0 else 1
      else 1

/-! ## Content preservation (for the Content Mutator invariant)

The preservation notion under which the mutator is additive: the
right-stripped non-blank lines of the input appear, in order, among the
right-stripped non-blank lines of the output.  (Right-stripping is needed
because the end-of-document insertion paths call `content.rstrip()`, which
may remove trailing blanks of the last non-blank line.) -/

/-- The right-stripped non-blank lines of a document. -/
def keptLines (s : List Char) : List (List Char) :=
  ((splitLines s).map pyRstrip).filter (fun l => !l.isEmpty)

/-- `b` preserves `a`: the right-stripped non-blank lines of `a` form a
sublist (in order) of those of `b`. -/
def linePreserving (a b : List Char) : Prop :=
  List.Sublist (keptLines a) (keptLines b)

/-- Consecutive differences of a reversed score list: for
`[sₙ, …, s₁, s₀]` (most recent first) this is
`[sₙ - sₙ₋₁, …, s₁ - s₀]`. -/
def revDiffs : List ℚ → List ℚ
  | b :: a :: t => (b - a) :: revDiffs (a :: t)
  | _ => []

/-- The per-cycle score deltas of a score history, most recent cycle first:
entry `i` is the delta `new_score - current_score` computed by the loop in the
`i`-th-from-last cycle that re-scored. -/
def recentDeltas (h : List ℚ) : List ℚ := revDiffs h.reverse

/-- Replace the last segment `l` of a split-line list by `l ++ w` (the effect
of appending newline-free text to a document). -/
def extendLast (w : List Char) : List (List Char) → List (List Char)
  | [] => [w]
  | [l] => [l ++ w]
  | l :: ls => l :: extendLast w ls

/-! ## Concrete instances used by the closed-form evaluations -/

/-- A config with `max_iterations = 1` (legal per `set_max_iterations`,
lines 73-77). -/
def oneIterConfig : EnhanceConfig :=
  { qualityThreshold := 9, maxIterations := 1, plateauIterations := 3,
    minScoreImprovement := 0.1 }

/-- The default constructor arguments of `UltraworkEnhancerV3.__init__`. -/
def defaultConfig : EnhanceConfig := {}

/-- A config whose plateau window is 2 cycles. -/
def plateauConfig : EnhanceConfig :=
  { qualityThreshold := 9, maxIterations := 3, plateauIterations := 2,
    minScoreImprovement := 0.1 }

/-- A config allowing two cycles. -/
def twoIterConfig : EnhanceConfig :=
  { qualityThreshold := 9, maxIterations := 2, plateauIterations := 3,
    minScoreImprovement := 0.1 }

/-- Engines for a document (contents abstracted to `ℕ`) whose identifier never
finds an improvement and whose score stays at 5. -/
def constNoImpComponents : Components ℕ Unit Unit :=
  { assess := fun _ => 5
    identify := fun _ => []
    applyImps := fun n _ => (n, [], []) }

/-- Engines for a document scoring 5 before mutation and 9.5 after the first
mutation (the threshold is first met by the cycle's re-score). -/
def thresholdLateComponents : Components ℕ Unit Unit :=
  { assess := fun n => if n = 0 then 5 else 9.5
    identify := fun _ => [()]
    applyImps := fun n _ => (n + 1, [()], []) }

/-- Engines whose identifier always proposes one improvement but whose score
never moves from 5 (a pure plateau). -/
def flatScoreComponents : Components ℕ Unit Unit :=
  { assess := fun _ => 5
    identify := fun _ => [()]
    applyImps := fun n _ => (n + 1, [()], []) }

/-- A strategy body that always raises. -/
def failingStrategy : Strategy ℕ :=
  fun _ _ => Except.error ("boom".toList)

/-- A dispatch table installing the raising strategy for `add_section`. -/
def failingDispatch : ImprovementType → Option (Strategy ℕ)
  | ImprovementType.addSection => some failingStrategy
  | _ => none

/-- A concrete `add_section` improvement. -/
def impAddSection : Improvement :=
  { type := ImprovementType.addSection
    targetSection := []
    description := []
    priority := Priority.high }

/-- A concrete `add_traceability` improvement (a category
`apply_requirements_improvements` has no branch for). -/
def impTraceability : Improvement :=
  { type := ImprovementType.addTraceability
    targetSection := []
    description := []
    priority := Priority.high }

/-- A concrete `add_nfr` improvement as the identifier produces it when the
non-functional section is missing (`improvement_identifier.py`
lines 97-104 and the en branch). -/
def impNfr : Improvement :=
  { type := ImprovementType.addNfr
    targetSection := "非功能需求".toList
    description := []
    priority := Priority.medium }

/-- An input document whose last non-blank line carries a trailing blank:
`"# T\nfoo "`. -/
def trailingWsDoc : List Char := ("# T\nfoo ").toList

/-! # Theorems -/

/-! ## Convergence-loop lemmas -/

/-- Each loop pass consumes one unit of fuel and increments `iteration` by
one, so the final iteration count is bounded by the starting count plus the
fuel. -/
theorem loopGo_iteration_le {α ι ε : Type} (cfg : EnhanceConfig)
    (comps : Components α ι ε) :
    ∀ (fuel : ℕ) (s : LoopState α ι ε),
      (loopGo cfg comps fuel s).1.iteration ≤ s.iteration + fuel := by
  intro fuel
  induction fuel with
  | zero => intro s; simp [loopGo]
  | succ n ih =>
    intro s
    simp only [loopGo]
    split
    · simp
    · split
      · simp
      · split
        · split
          · simp
          · exact le_trans (ih _) (by simp; omega)
        · exact le_trans (ih _) (by simp; omega)

/-- A `threshold` break reports a current score at or above the threshold. -/
theorem loopGo_threshold_score {α ι ε : Type} (cfg : EnhanceConfig)
    (comps : Components α ι ε) :
    ∀ (fuel : ℕ) (s : LoopState α ι ε),
      (loopGo cfg comps fuel s).2 = some BreakTag.threshold →
      cfg.qualityThreshold ≤ (loopGo cfg comps fuel s).1.curScore := by
  intro fuel
  induction fuel with
  | zero => intro s h; simp [loopGo] at h
  | succ n ih =>
    intro s
    simp only [loopGo]
    split
    · intro h; simp at h
    · split
      · intro _
        next hthr _ => simpa using hthr
      · split
        · split
          · intro h; simp at h
          · exact fun h => ih _ h
        · exact fun h => ih _ h

/-- Score dichotomy: starting strictly below the threshold, the loop either
breaks on `threshold` or reports a current score still strictly below the
threshold (every continuing or otherwise-breaking cycle re-checked it). -/
theorem loopGo_score_cases {α ι ε : Type} (cfg : EnhanceConfig)
    (comps : Components α ι ε) :
    ∀ (fuel : ℕ) (s : LoopState α ι ε),
      s.curScore < cfg.qualityThreshold →
      ((loopGo cfg comps fuel s).2 = some BreakTag.threshold ∨
        (loopGo cfg comps fuel s).1.curScore < cfg.qualityThreshold) := by
  intro fuel
  induction fuel with
  | zero => intro s hs; right; simpa [loopGo] using hs
  | succ n ih =>
    intro s hs
    simp only [loopGo]
    split
    · right; simpa using hs
    · split
      · left; rfl
      next hthr =>
        split
        · split
          · right; simpa using lt_of_not_le hthr
          · exact ih _ (by simpa using lt_of_not_le hthr)
        · exact ih _ (by simpa using lt_of_not_le hthr)

/-- When the loop is entered strictly below the threshold and does not break
on `threshold`, the reported current score stays strictly below the
threshold. -/
theorem loopGo_below_threshold {α ι ε : Type} (cfg : EnhanceConfig)
    (comps : Components α ι ε) (fuel : ℕ) (s : LoopState α ι ε)
    (hs : s.curScore < cfg.qualityThreshold)
    (hne : (loopGo cfg comps fuel s).2 ≠ some BreakTag.threshold) :
    (loopGo cfg comps fuel s).1.curScore < cfg.qualityThreshold :=
  (loopGo_score_cases cfg comps fuel s hs).resolve_left hne

/-- History bookkeeping: starting from `history.length = iteration + 1`, the
loop maintains one history entry per completed re-score, so on exit the
length is `iteration + 1` — except after a `no_improvements` break, whose
cycle incremented `iteration` before the point where the re-score would have
been appended, leaving only `iteration` entries. -/
theorem loopGo_history_length {α ι ε : Type} (cfg : EnhanceConfig)
    (comps : Components α ι ε) :
    ∀ (fuel : ℕ) (s : LoopState α ι ε),
      s.history.length = s.iteration + 1 →
      (loopGo cfg comps fuel s).1.history.length =
        (if (loopGo cfg comps fuel s).2 = some BreakTag.noImprovements
         then (loopGo cfg comps fuel s).1.iteration
         else (loopGo cfg comps fuel s).1.iteration + 1) := by
  intro fuel
  induction fuel with
  | zero => intro s h; simpa [loopGo] using h
  | succ n ih =>
    intro s hs
    simp only [loopGo]
    split
    · simpa using hs
    · split
      · simpa using hs
      · split
        · split
          · simpa using hs
          · exact ih _ (by simpa using hs)
        · exact ih _ (by simpa using hs)

/-! ## C5 — termination / iteration bound -/

/-- C5: For every configuration with `max_iterations ≥ 1` and
`plateau_iterations ≥ 1` and every readable document, the enhancement loop
halts after at most `max_iterations` Score→Identify→Apply cycles and the
returned `EnhancementResult.iterations` never exceeds `max_iterations`.
(The embedding `enhance` is a total function, so the halting part is
witnessed by the bound itself.) -/
theorem C5_iterations_le_max {α ι ε : Type} (cfg : EnhanceConfig)
    (comps : Components α ι ε) (content : α) (writeOk : Bool)
    (hmax : 1 ≤ cfg.maxIterations) (hpl : 1 ≤ cfg.plateauIterations) :
    (enhance cfg comps content writeOk).result.iterations ≤ cfg.maxIterations := by
  unfold enhance
  by_cases h : cfg.qualityThreshold ≤ comps.assess content
  · simp [h]
  · have hb := loopGo_iteration_le cfg comps cfg.maxIterations
      { content := content
        curScore := comps.assess content
        history := [comps.assess content]
        applied := []
        failed := []
        iteration := 0
        plateauCount := 0 }
    simp only [Nat.zero_add] at hb
    cases writeOk <;> simp [h] <;> exact hb

/-- Witness for C5 at a concrete run. -/
theorem C5_witness :
    1 ≤ plateauConfig.maxIterations ∧ 1 ≤ plateauConfig.plateauIterations ∧
    (enhance plateauConfig flatScoreComponents 0 true).result.iterations ≤
      plateauConfig.maxIterations :=
  ⟨by decide, by decide,
    C5_iterations_le_max plateauConfig flatScoreComponents 0 true
      (by decide) (by decide)⟩

/-! ## C2 — write-back behaviour -/

/-- C2 counterexample: with engines that identify no improvement at all, the
V3 run stops with `no_improvements` after changing nothing, yet the save step
runs and rewrites the original content — refuting "if no cycle ever changes
the content, nothing is written back". -/
theorem C2_counterexample :
    (enhance twoIterConfig constNoImpComponents 0 true).result.stoppingReason =
        StopReason.noImprovements ∧
    (enhance twoIterConfig constNoImpComponents 0 true).written = some 0 ∧
    (enhance twoIterConfig constNoImpComponents 0 true).writeAttempted = true := by
  norm_num [enhance, loopGo, twoIterConfig, constNoImpComponents]

/-- C2 (amended): the V3 controller attempts the write-back on every run whose
initial score is below the threshold — regardless of whether any cycle
changed the content — and skips it exactly on the early
threshold-already-met return; only the legacy `UltraworkEnhancer` guards the
write with a changed-content check (it writes iff the final content differs
from the original). -/
theorem C2_write_back_behaviour :
    (∀ (α ι ε : Type) (cfg : EnhanceConfig) (comps : Components α ι ε)
        (content : α),
      (enhance cfg comps content true).writeAttempted = true ↔
        ¬ cfg.qualityThreshold ≤ comps.assess content) ∧
    (∀ (α β : Type) (_ : DecidableEq α) (threshold : ℚ) (maxIter : ℕ)
        (assess : α → ℚ) (identify : α → List β) (applyImps : α → List β → α)
        (content : α),
      ((legacyEnhance threshold maxIter assess identify applyImps content).written ≠
          none ↔
        (legacyEnhance threshold maxIter assess identify applyImps
            content).finalContent ≠ content)) := by
  constructor
  · intro α ι ε cfg comps content
    unfold enhance
    by_cases h : cfg.qualityThreshold ≤ comps.assess content
    · simp [h]
    · simp [h]
  · intro α β _ threshold maxIter assess identify applyImps content
    simp only [legacyEnhance]
    by_cases h : threshold ≤ assess content
    · simp [h]
    · by_cases hc :
          (legacyGo threshold assess identify applyImps maxIter content
            (assess content) 0).1 = content
      · simp [h, hc]
      · simp [h, hc]

/-! ## C1 — threshold precedence and the final-iteration override -/

/-- C1 counterexample: with `max_iterations = 1` and a document whose first
re-score reaches 9.5 ≥ 9, the loop breaks on the threshold check, but the
post-loop `if iteration >= max_iterations` re-assignment overwrites the
reason: the run reports `max_iterations`, not `threshold_reached`. -/
theorem C1_counterexample :
    9 ≤ (enhance oneIterConfig thresholdLateComponents 0 true).result.finalScore ∧
    (enhance oneIterConfig thresholdLateComponents 0 true).result.stoppingReason =
        StopReason.maxIterations ∧
    StopReason.maxIterations ≠ StopReason.thresholdReached := by
  refine ⟨?_, ?_, by decide⟩ <;> norm_num [enhance, loopGo, oneIterConfig, thresholdLateComponents]

/-- C1 (amended): for a run whose write succeeds, `stopping_reason` is
`threshold_reached` exactly when the final score meets the threshold **and**
fewer than `max_iterations` cycles ran: the threshold check still beats the
plateau check inside any cycle, but when the threshold is first met on the
final permitted iteration the post-loop max-iterations re-assignment
overwrites the reason with `max_iterations`. -/
theorem C1_threshold_reason_iff {α ι ε : Type} (cfg : EnhanceConfig)
    (comps : Components α ι ε) (content : α) (hmax : 1 ≤ cfg.maxIterations) :
    ((enhance cfg comps content true).result.stoppingReason =
        StopReason.thresholdReached ↔
      (cfg.qualityThreshold ≤ (enhance cfg comps content true).result.finalScore ∧
        (enhance cfg comps content true).result.iterations < cfg.maxIterations)) := by
  unfold enhance
  by_cases h : cfg.qualityThreshold ≤ comps.assess content
  · simp only [h, if_true]
    simp [h]
    omega
  · have hs0 : (⟨content, comps.assess content, [comps.assess content], [], [],
        0, 0⟩ : LoopState α ι ε).curScore < cfg.qualityThreshold :=
      lt_of_not_le h
    simp only [h, if_false, if_true]
    set s0 : LoopState α ι ε :=
      ⟨content, comps.assess content, [comps.assess content], [], [], 0, 0⟩ with hs0def
    by_cases hiter :
        cfg.maxIterations ≤ (loopGo cfg comps cfg.maxIterations s0).1.iteration
    · simp only [hiter, if_true]
      constructor
      · intro hcontra; exact absurd hcontra (by decide)
      · intro ⟨_, hlt⟩; omega
    · simp only [hiter, if_false]
      cases htag : (loopGo cfg comps cfg.maxIterations s0).2 with
      | none =>
        constructor
        · intro hcontra; exact absurd hcontra (by decide)
        · intro ⟨hge, _⟩
          exact absurd (lt_of_le_of_lt hge
            (loopGo_below_threshold cfg comps cfg.maxIterations s0 hs0
              (by simp [htag]))) (lt_irrefl _)
      | some tag =>
        cases tag with
        | threshold =>
          constructor
          · intro _
            exact ⟨loopGo_threshold_score cfg comps cfg.maxIterations s0 htag,
              lt_of_not_le hiter⟩
          · intro _; trivial
        | plateau =>
          constructor
          · intro hcontra; exact absurd hcontra (by decide)
          · intro ⟨hge, _⟩
            exact absurd (lt_of_le_of_lt hge
              (loopGo_below_threshold cfg comps cfg.maxIterations s0 hs0
                (by simp [htag]))) (lt_irrefl _)
        | noImprovements =>
          constructor
          · intro hcontra; exact absurd hcontra (by decide)
          · intro ⟨hge, _⟩
            exact absurd (lt_of_le_of_lt hge
              (loopGo_below_threshold cfg comps cfg.maxIterations s0 hs0
                (by simp [htag]))) (lt_irrefl _)

/-- Witness for C1's amended equivalence at a concrete configuration. -/
theorem C1_witness :
    1 ≤ plateauConfig.maxIterations ∧
    ((enhance plateauConfig thresholdLateComponents 0 true).result.stoppingReason =
        StopReason.thresholdReached ↔
      (plateauConfig.qualityThreshold ≤
          (enhance plateauConfig thresholdLateComponents 0 true).result.finalScore ∧
        (enhance plateauConfig thresholdLateComponents 0 true).result.iterations <
          plateauConfig.maxIterations)) :=
  ⟨by decide,
    C1_threshold_reason_iff plateauConfig thresholdLateComponents 0 (by decide)⟩

/-! ## C3 — score-history length -/

/-- C3 counterexample: a run whose identifier immediately returns no
improvements consumes one iteration but appends no re-score:
`iterations = 1` with a one-entry history, refuting
"exactly iterations + 1 entries regardless of the stopping condition". -/
theorem C3_counterexample :
    (enhance twoIterConfig constNoImpComponents 0 true).result.iterations = 1 ∧
    (enhance twoIterConfig constNoImpComponents 0 true).result.scoreHistory.length = 1 ∧
    (enhance twoIterConfig constNoImpComponents 0 true).result.stoppingReason =
        StopReason.noImprovements := by
  norm_num [enhance, loopGo, twoIterConfig, constNoImpComponents]

/-- C3 (amended): for every run past a successful read, the score history has
exactly `iterations + 1` entries — one per re-scored cycle plus cycle 0 —
**unless** the loop ended because the identifier returned no improvements, in
which case that final cycle consumed an iteration without a re-score and the
history has exactly `iterations` entries. -/
theorem C3_history_length {α ι ε : Type} (cfg : EnhanceConfig)
    (comps : Components α ι ε) (content : α) (writeOk : Bool) :
    (enhance cfg comps content writeOk).result.scoreHistory.length =
      (if (enhance cfg comps content writeOk).breakTag =
          some BreakTag.noImprovements
       then (enhance cfg comps content writeOk).result.iterations
       else (enhance cfg comps content writeOk).result.iterations + 1) := by
  unfold enhance
  by_cases h : cfg.qualityThreshold ≤ comps.assess content
  · simp [h]
  · have hlen := loopGo_history_length cfg comps cfg.maxIterations
      (⟨content, comps.assess content, [comps.assess content], [], [], 0, 0⟩ :
        LoopState α ι ε) (by simp)
    cases writeOk <;> simp only [h, if_false, if_true] <;> exact hlen

/-! ## C6 — plateau stopping -/

/-- `revDiffs` of a list of length `n` has `n - 1` entries. -/
theorem revDiffs_length (l : List ℚ) : (revDiffs l).length = l.length - 1 := by
  induction l with
  | nil => rfl
  | cons b t ih =>
    cases t with
    | nil => rfl
    | cons a t' =>
      simp only [revDiffs, List.length_cons] at ih ⊢
      omega

/-- Plateau invariant: the loop keeps `plateau_count` equal to (at most) the
number of trailing cycles whose delta fell below `min_score_improvement`, so
a `plateau` break guarantees that the last `plateau_iterations` deltas of the
history were all low and every recorded score was below the threshold. -/
theorem loopGo_plateau_streak {α ι ε : Type} (cfg : EnhanceConfig)
    (comps : Components α ι ε) :
    ∀ (fuel : ℕ) (s : LoopState α ι ε),
      (∃ t, s.history.reverse = s.curScore :: t) →
      (∀ x ∈ s.history, x < cfg.qualityThreshold) →
      s.plateauCount ≤ (revDiffs s.history.reverse).length →
      (∀ d ∈ (revDiffs s.history.reverse).take s.plateauCount,
        d < cfg.minScoreImprovement) →
      (loopGo cfg comps fuel s).2 = some BreakTag.plateau →
      ((∀ x ∈ (loopGo cfg comps fuel s).1.history, x < cfg.qualityThreshold) ∧
        cfg.plateauIterations ≤
          (revDiffs (loopGo cfg comps fuel s).1.history.reverse).length ∧
        (∀ d ∈ (revDiffs (loopGo cfg comps fuel s).1.history.reverse).take
            cfg.plateauIterations, d < cfg.minScoreImprovement)) := by
  intro fuel
  induction fuel with
  | zero => intro s _ _ _ _ hbrk; simp [loopGo] at hbrk
  | succ n ih =>
    intro s hrev hthr hlen hlow
    obtain ⟨t, ht⟩ := hrev
    simp only [loopGo]
    split
    · intro hbrk; simp at hbrk
    · split
      · intro hbrk; simp at hbrk
      next hsc =>
        generalize hg :
          comps.assess (comps.applyImps s.content (comps.identify s.content)).1 =
            nsc at hsc ⊢
        have hnew : nsc < cfg.qualityThreshold := lt_of_not_le hsc
        have hrev' : (s.history ++ [nsc]).reverse = nsc :: s.curScore :: t := by
          simp [ht]
        have hdiff : revDiffs ((s.history ++ [nsc]).reverse) =
            (nsc - s.curScore) :: revDiffs s.history.reverse := by
          rw [hrev', ht]
          simp [revDiffs]
        have hthr' : ∀ x ∈ s.history ++ [nsc], x < cfg.qualityThreshold := by
          intro x hx
          rcases List.mem_append.mp hx with hx | hx
          · exact hthr x hx
          · rw [List.mem_singleton.mp hx]; exact hnew
        have hlen' : s.plateauCount + 1 ≤
            (revDiffs ((s.history ++ [nsc]).reverse)).length := by
          rw [hdiff]
          simpa using Nat.succ_le_succ hlen
        split
        next hdelta =>
          have hlow' : ∀ d ∈ (revDiffs ((s.history ++ [nsc]).reverse)).take
              (s.plateauCount + 1), d < cfg.minScoreImprovement := by
            rw [hdiff]
            intro d hd
            rcases List.mem_cons.mp (by
              simpa only [List.take_succ_cons] using hd) with h1 | h1
            · rw [h1]; exact hdelta
            · exact hlow d h1
          split
          next hpc =>
            intro _
            refine ⟨hthr', le_trans hpc hlen', ?_⟩
            intro d hd
            apply hlow'
            have htk : (revDiffs ((s.history ++ [nsc]).reverse)).take
                cfg.plateauIterations =
                ((revDiffs ((s.history ++ [nsc]).reverse)).take
                  (s.plateauCount + 1)).take cfg.plateauIterations := by
              rw [List.take_take, min_eq_left hpc]
            rw [htk] at hd
            exact List.take_subset _ _ hd
          · exact ih _ ⟨s.curScore :: t, hrev'⟩ hthr' hlen' hlow'
        next hdelta =>
          exact ih _ ⟨s.curScore :: t, hrev'⟩ hthr' (by simp) (by simp)

/-- C6: the loop stops with `stopping_reason = 'plateau'` only after
`plateau_iterations` consecutive cycles whose score delta stayed below
`min_score_improvement` with the score still below the threshold: every
recorded score is below the threshold, the history records at least
`plateau_iterations` cycle deltas, the most recent `plateau_iterations` of
them are all below `min_score_improvement`, and at least `plateau_iterations`
iterations ran — so with `plateau_iterations > 1` a single low-improvement
cycle can never have triggered the stop (a cycle with delta ≥
`min_score_improvement` resets the consecutive-miss counter,
`plateau_count = 0`, in the source). -/
theorem C6_plateau_only_after_streak {α ι ε : Type} (cfg : EnhanceConfig)
    (comps : Components α ι ε) (content : α) (writeOk : Bool)
    (h : (enhance cfg comps content writeOk).result.stoppingReason =
      StopReason.plateau) :
    ((∀ x ∈ (enhance cfg comps content writeOk).result.scoreHistory,
        x < cfg.qualityThreshold) ∧
      cfg.plateauIterations ≤
        (recentDeltas
          (enhance cfg comps content writeOk).result.scoreHistory).length ∧
      (∀ d ∈ (recentDeltas
          (enhance cfg comps content writeOk).result.scoreHistory).take
          cfg.plateauIterations, d < cfg.minScoreImprovement) ∧
      cfg.plateauIterations ≤
        (enhance cfg comps content writeOk).result.iterations) := by
  by_cases hinit : cfg.qualityThreshold ≤ comps.assess content
  · simp only [enhance, hinit, if_true] at h
    exact absurd h (by decide)
  · simp only [enhance, hinit, if_false] at h ⊢
    cases writeOk with
    | false =>
      simp only [Bool.false_eq_true, if_false] at h
      exact absurd h (by decide)
    | true =>
      simp only [if_true] at h ⊢
      simp only [recentDeltas]
      by_cases hiter : cfg.maxIterations ≤
          (loopGo cfg comps cfg.maxIterations
            ⟨content, comps.assess content, [comps.assess content], [], [],
              0, 0⟩).1.iteration
      · rw [if_pos hiter] at h
        exact absurd h (by decide)
      · rw [if_neg hiter] at h
        cases htag : (loopGo cfg comps cfg.maxIterations
            ⟨content, comps.assess content, [comps.assess content], [], [],
              0, 0⟩).2 with
        | none => rw [htag] at h; exact absurd h (by decide)
        | some tag =>
          rw [htag] at h
          cases tag with
          | threshold => exact absurd h (by decide)
          | noImprovements => exact absurd h (by decide)
          | plateau =>
            have hstreak := loopGo_plateau_streak cfg comps cfg.maxIterations
              ⟨content, comps.assess content, [comps.assess content], [], [],
                0, 0⟩
              ⟨[], by simp⟩
              (by intro x hx; rw [List.mem_singleton.mp hx]
                  exact lt_of_not_le hinit)
              (by simp) (by simp) htag
            have hhl := loopGo_history_length cfg comps cfg.maxIterations
              ⟨content, comps.assess content, [comps.assess content], [], [],
                0, 0⟩ (by simp)
            rw [htag] at hhl
            simp only [Option.some.injEq, reduceCtorEq, if_false] at hhl
            refine ⟨hstreak.1, hstreak.2.1, hstreak.2.2, ?_⟩
            have hdl := revDiffs_length
              ((loopGo cfg comps cfg.maxIterations
                ⟨content, comps.assess content, [comps.assess content], [], [],
                  0, 0⟩).1.history.reverse)
            rw [List.length_reverse] at hdl
            omega

/-- Witness for C6 at a concrete plateau run (two consecutive zero-delta
cycles with `plateau_iterations = 2`). -/
theorem C6_witness :
    (enhance plateauConfig flatScoreComponents 0 true).result.stoppingReason =
        StopReason.plateau ∧
    ((∀ x ∈ (enhance plateauConfig flatScoreComponents 0 true).result.scoreHistory,
        x < plateauConfig.qualityThreshold) ∧
      plateauConfig.plateauIterations ≤
        (recentDeltas
          (enhance plateauConfig flatScoreComponents 0 true).result.scoreHistory).length ∧
      (∀ d ∈ (recentDeltas
          (enhance plateauConfig flatScoreComponents 0 true).result.scoreHistory).take
          plateauConfig.plateauIterations, d < plateauConfig.minScoreImprovement) ∧
      plateauConfig.plateauIterations ≤
        (enhance plateauConfig flatScoreComponents 0 true).result.iterations) :=
  ⟨by norm_num [enhance, loopGo, plateauConfig, flatScoreComponents],
    C6_plateau_only_after_streak plateauConfig flatScoreComponents 0 true
      (by norm_num [enhance, loopGo, plateauConfig, flatScoreComponents])⟩

/-! ## C7 — assessment score bounds -/

/-- C7: for every document (abstracted by its extracted measurements) and
language, each criterion sub-score of `assess_requirements_quality` is
bounded by its per-criterion cap (structure ≤ 2, ears_format ≤ 2,
user_stories ≤ 2, acceptance_criteria ≤ 2, nfr_coverage ≤ 1,
constraints ≤ 1), all sub-scores are non-negative, and the total score is the
sum of the sub-scores clipped to 10, hence `0 ≤ score ≤ 10`. -/
theorem C7_assessment_bounds (lang : Lang) (sig : ReqSignals) :
    (0 ≤ (assessRequirementsScore lang sig).structureScore ∧
      (assessRequirementsScore lang sig).structureScore ≤ 2) ∧
    (0 ≤ (assessRequirementsScore lang sig).earsFormat ∧
      (assessRequirementsScore lang sig).earsFormat ≤ 2) ∧
    (0 ≤ (assessRequirementsScore lang sig).userStories ∧
      (assessRequirementsScore lang sig).userStories ≤ 2) ∧
    (0 ≤ (assessRequirementsScore lang sig).acceptanceCriteria ∧
      (assessRequirementsScore lang sig).acceptanceCriteria ≤ 2) ∧
    (0 ≤ (assessRequirementsScore lang sig).nfrCoverage ∧
      (assessRequirementsScore lang sig).nfrCoverage ≤ 1) ∧
    (0 ≤ (assessRequirementsScore lang sig).constraints ∧
      (assessRequirementsScore lang sig).constraints ≤ 1) ∧
    (assessRequirementsScore lang sig).score =
      min (criteriaSum (assessRequirementsScore lang sig)) 10 ∧
    0 ≤ (assessRequirementsScore lang sig).score ∧
    (assessRequirementsScore lang sig).score ≤ 10 := by
  cases lang <;>
    · simp only [assessRequirementsScore, criteriaSum]
      refine ⟨⟨by split_ifs <;> norm_num, by split_ifs <;> norm_num⟩,
        ⟨le_min (by positivity) (by norm_num), min_le_right _ _⟩,
        ⟨le_min (by positivity) (by norm_num), min_le_right _ _⟩,
        ⟨by split_ifs <;> exact le_min (by positivity) (by norm_num),
          by split_ifs <;> exact min_le_right _ _⟩,
        ⟨le_min (by positivity) (by norm_num), min_le_right _ _⟩,
        ⟨by split_ifs <;> norm_num, by split_ifs <;> norm_num⟩,
        by trivial,
        le_min
          (by
            repeat' apply add_nonneg
            all_goals positivity)
          (by norm_num),
        min_le_right _ _⟩

/-! ## C8 — per-improvement failure isolation -/

/-- C8: when a dispatched strategy raises, the batch loop records exactly that
`(improvement, error)` pair in the failed list, leaves the document content
and the applied list untouched by that improvement, and continues processing
the remaining improvements from the same state — a single failure never
aborts the batch, and is visible only through the failure list. -/
theorem C8_failure_isolated {α : Type} [DecidableEq α]
    (dispatch : ImprovementType → Option (Strategy α)) (imp : Improvement)
    (rest : List Improvement) (content : α) (applied : List Improvement)
    (failed : List (Improvement × PyErr)) (f : Strategy α) (e : PyErr)
    (hd : dispatch imp.type = some f) (he : f content imp = Except.error e) :
    applyGo dispatch (imp :: rest) (content, applied, failed) =
      applyGo dispatch rest (content, applied, failed ++ [(imp, e)]) := by
  simp [applyGo, hd, he]

/-- Witness for C8 at a concrete raising strategy. -/
theorem C8_witness :
    applyGo failingDispatch [impAddSection] ((0 : ℕ), [], []) =
      applyGo failingDispatch []
        ((0 : ℕ), [], [(impAddSection, ("boom").toList)]) :=
  C8_failure_isolated failingDispatch impAddSection [] 0 [] [] failingStrategy
    (("boom").toList) rfl rfl

/-! ## C10 lemmas — applied/failed bookkeeping of the batch loop -/

/-- Anything in the final applied list was in the starting applied list or
was added because its dispatched strategy returned, on some content, an `ok`
result different from that content. -/
theorem applyGo_applied_mem {α : Type} [DecidableEq α]
    (dispatch : ImprovementType → Option (Strategy α)) :
    ∀ (imps : List Improvement)
      (st : α × List Improvement × List (Improvement × PyErr))
      (imp : Improvement), imp ∈ (applyGo dispatch imps st).2.1 →
      (imp ∈ st.2.1 ∨
        ∃ f c c', dispatch imp.type = some f ∧ f c imp = Except.ok c' ∧
          c' ≠ c) := by
  intro imps
  induction imps with
  | nil => intro st imp h; exact Or.inl h
  | cons i rest ih =>
    intro st imp
    obtain ⟨content, applied, failed⟩ := st
    simp only [applyGo]
    split
    · exact fun h => ih _ imp h
    next f hd =>
      split
      next result hr =>
        split_ifs with hne
        · intro h
          rcases ih _ imp h with hmem | hex
          · rcases List.mem_append.mp hmem with h1 | h1
            · exact Or.inl h1
            · have hie : imp = i := List.mem_singleton.mp h1
              subst hie
              exact Or.inr ⟨f, content, result, hd, hr, hne⟩
          · exact Or.inr hex
        · exact fun h => ih _ imp h
      next e hr => exact fun h => ih _ imp h

/-- Anything in the final failed list was in the starting failed list or was
added because its dispatched strategy raised exactly that error on some
content. -/
theorem applyGo_failed_mem {α : Type} [DecidableEq α]
    (dispatch : ImprovementType → Option (Strategy α)) :
    ∀ (imps : List Improvement)
      (st : α × List Improvement × List (Improvement × PyErr))
      (p : Improvement × PyErr), p ∈ (applyGo dispatch imps st).2.2 →
      (p ∈ st.2.2 ∨
        ∃ f c, dispatch p.1.type = some f ∧ f c p.1 = Except.error p.2) := by
  intro imps
  induction imps with
  | nil => intro st p h; exact Or.inl h
  | cons i rest ih =>
    intro st p
    obtain ⟨content, applied, failed⟩ := st
    simp only [applyGo]
    split
    · exact fun h => ih _ p h
    next f hd =>
      split
      next result hr =>
        split_ifs with hne
        · exact fun h => ih _ p h
        · exact fun h => ih _ p h
      next e hr =>
        intro h
        rcases ih _ p h with hmem | hex
        · rcases List.mem_append.mp hmem with h1 | h1
          · exact Or.inl h1
          · have hpe : p = (i, e) := List.mem_singleton.mp h1
            subst hpe
            exact Or.inr ⟨f, content, hd, hr⟩
        · exact Or.inr hex

/-- An improvement whose category has no dispatch branch, or whose dispatched
strategy returns every content unchanged, is never added to either list. -/
theorem applyGo_skipped {α : Type} [DecidableEq α]
    (dispatch : ImprovementType → Option (Strategy α)) (imp : Improvement)
    (hyp : dispatch imp.type = none ∨
      ∃ f, dispatch imp.type = some f ∧ ∀ c, f c imp = Except.ok c) :
    ∀ (imps : List Improvement)
      (st : α × List Improvement × List (Improvement × PyErr)),
      (imp ∉ st.2.1 → imp ∉ (applyGo dispatch imps st).2.1) ∧
      (∀ e, (imp, e) ∉ st.2.2 → (imp, e) ∉ (applyGo dispatch imps st).2.2) := by
  intro imps
  induction imps with
  | nil => intro st; exact ⟨fun h => h, fun _ h => h⟩
  | cons i rest ih =>
    intro st
    obtain ⟨content, applied, failed⟩ := st
    simp only [applyGo]
    split
    · exact ih (content, applied, failed)
    next f hd =>
      split
      next result hr =>
        split_ifs with hne
        · constructor
          · intro hnotin
            refine (ih (result, applied ++ [i], failed)).1 ?_
            intro hmem
            rcases List.mem_append.mp hmem with h1 | h1
            · exact hnotin h1
            · have hie : imp = i := List.mem_singleton.mp h1
              subst hie
              rcases hyp with hnone | ⟨g, hg, hid⟩
              · rw [hnone] at hd; cases hd
              · rw [hg] at hd
                have hgf : g = f := by injection hd
                subst hgf
                rw [hid content] at hr
                have hcr : content = result := by injection hr
                exact hne hcr.symm
          · exact fun e he => (ih (result, applied ++ [i], failed)).2 e he
        · exact ih (content, applied, failed)
      next e' hr =>
        constructor
        · exact fun hnotin =>
            (ih (content, applied, failed ++ [(i, e')])).1 hnotin
        · intro e he
          refine (ih (content, applied, failed ++ [(i, e')])).2 e ?_
          intro hmem
          rcases List.mem_append.mp hmem with h1 | h1
          · exact he h1
          · have hpe : ((imp, e) : Improvement × PyErr) = (i, e') :=
              List.mem_singleton.mp h1
            have hie : imp = i := by injection hpe
            subst hie
            rcases hyp with hnone | ⟨g, hg, hid⟩
            · rw [hnone] at hd; cases hd
            · rw [hg] at hd
              have hgf : g = f := by injection hd
              subst hgf
              rw [hid content] at hr
              cases hr

/-- The batch loop composes over concatenation of the improvement list, so
the state any suffix starts from is the state the prefix produced. -/
theorem applyGo_append {α : Type} [DecidableEq α]
    (dispatch : ImprovementType → Option (Strategy α)) :
    ∀ (l1 l2 : List Improvement)
      (st : α × List Improvement × List (Improvement × PyErr)),
      applyGo dispatch (l1 ++ l2) st =
        applyGo dispatch l2 (applyGo dispatch l1 st) := by
  intro l1
  induction l1 with
  | nil => intro l2 st; rfl
  | cons i t ih =>
    intro l2 st
    obtain ⟨content, applied, failed⟩ := st
    simp only [List.cons_append, applyGo]
    split
    · exact ih l2 (content, applied, failed)
    next f hd =>
      split
      next r hr =>
        split_ifs with hne
        · exact ih l2 (r, applied ++ [i], failed)
        · exact ih l2 (content, applied, failed)
      next e hr =>
        exact ih l2 (content, applied, failed ++ [(i, e)])

/-- C10: full characterization of `applied_improvements` and
`failed_improvements`.  First, `applyBatch` is the loop `applyGo` run over
the priority-sorted batch from the input content and empty accumulators.
Second, processing the k-th improvement of a run continues from the state
produced by the first k improvements, so "the current content" below is the
run's own current content at that improvement's processing point.  Third,
one loop step on state `(content, applied, failed)` appends the improvement
to `applied` **exactly when** its dispatched strategy returns an `ok` result
different from `content` (and that result then becomes the new content),
appends `(i, e)` to `failed` exactly when the strategy raises `e`, and
leaves both lists untouched exactly when the category has no dispatch branch
or the strategy returns the current content unchanged (anchor not found,
template missing, section already present) — so the two lists need not
partition the input, and content is unchanged whenever nothing was applied.
Last, the concrete no-branch categories of the two dispatch tables. -/
theorem C10_applied_failed_characterization :
    (∀ (α : Type) (_ : DecidableEq α)
        (dispatch : ImprovementType → Option (Strategy α)) (content : α)
        (imps : List Improvement),
      (applyBatch dispatch content imps).modifiedContent =
          (applyGo dispatch (sortByPriority imps) (content, [], [])).1 ∧
      (applyBatch dispatch content imps).appliedImprovements =
          (applyGo dispatch (sortByPriority imps) (content, [], [])).2.1 ∧
      (applyBatch dispatch content imps).failedImprovements =
          (applyGo dispatch (sortByPriority imps) (content, [], [])).2.2) ∧
    (∀ (α : Type) (_ : DecidableEq α)
        (dispatch : ImprovementType → Option (Strategy α)) (c0 : α)
        (L : List Improvement) (k : ℕ) (i : Improvement),
      L[k]? = some i →
      applyGo dispatch (L.take (k + 1)) (c0, [], []) =
        applyGo dispatch [i] (applyGo dispatch (L.take k) (c0, [], []))) ∧
    (∀ (α : Type) (_ : DecidableEq α)
        (dispatch : ImprovementType → Option (Strategy α)) (i : Improvement)
        (content : α) (applied : List Improvement)
        (failed : List (Improvement × PyErr)),
      ((applyGo dispatch [i] (content, applied, failed)).2.1 =
          applied ++ [i] ↔
        ∃ f r, dispatch i.type = some f ∧ f content i = Except.ok r ∧
          r ≠ content) ∧
      ((applyGo dispatch [i] (content, applied, failed)).2.1 =
          applied ++ [i] ∨
        (applyGo dispatch [i] (content, applied, failed)).2.1 = applied) ∧
      (∀ e, (applyGo dispatch [i] (content, applied, failed)).2.2 =
          failed ++ [(i, e)] ↔
        ∃ f, dispatch i.type = some f ∧ f content i = Except.error e) ∧
      ((∃ e, (applyGo dispatch [i] (content, applied, failed)).2.2 =
          failed ++ [(i, e)]) ∨
        (applyGo dispatch [i] (content, applied, failed)).2.2 = failed) ∧
      (((applyGo dispatch [i] (content, applied, failed)).2.1 = applied ∧
          (applyGo dispatch [i] (content, applied, failed)).2.2 = failed) ↔
        (dispatch i.type = none ∨
          ∃ f, dispatch i.type = some f ∧
            f content i = Except.ok content)) ∧
      (∀ f r, dispatch i.type = some f → f content i = Except.ok r →
        r ≠ content →
        applyGo dispatch [i] (content, applied, failed) =
          (r, applied ++ [i], failed)) ∧
      ((applyGo dispatch [i] (content, applied, failed)).2.1 = applied →
        (applyGo dispatch [i] (content, applied, failed)).1 = content)) ∧
    (∀ lang : Lang,
      reqDispatch lang ImprovementType.addTraceability = none ∧
      reqDispatch lang ImprovementType.addDiagram = none ∧
      reqDispatch lang ImprovementType.addRationale = none ∧
      reqDispatch lang ImprovementType.addComponentDetail = none ∧
      reqDispatch lang ImprovementType.addProperties = none) ∧
    (∀ (reqContent : List Char) (lang : Lang),
      designDispatch reqContent lang ImprovementType.enhanceCriteria = none ∧
      designDispatch reqContent lang ImprovementType.addNfr = none ∧
      designDispatch reqContent lang ImprovementType.addErrorHandling = none ∧
      designDispatch reqContent lang ImprovementType.addEdgeCases = none ∧
      designDispatch reqContent lang ImprovementType.addGlossaryTerm = none) := by
  refine ⟨?_, ?_, ?_, ?_, ?_⟩
  · intro α _ dispatch content imps
    exact ⟨rfl, rfl, rfl⟩
  · intro α _ dispatch c0 L k i hget
    rw [List.take_succ, hget]
    simp only [Option.toList_some]
    exact applyGo_append dispatch (L.take k) [i] (c0, [], [])
  · intro α _ dispatch i content applied failed
    cases hd : dispatch i.type with
    | none =>
      have hrun : applyGo dispatch [i] (content, applied, failed) =
          (content, applied, failed) := by simp [applyGo, hd]
      rw [hrun]
      simp
    | some f =>
      cases hr : f content i with
      | ok r =>
        by_cases hne : r = content
        · have hrun : applyGo dispatch [i] (content, applied, failed) =
              (content, applied, failed) := by simp [applyGo, hd, hr, hne]
          rw [hrun]
          simp [hr, hne]
          intro g r' hg hgr
          rw [← hg, hr] at hgr
          injection hgr with h
          rw [← h]
          exact hne
        · have hrun : applyGo dispatch [i] (content, applied, failed) =
              (r, applied ++ [i], failed) := by simp [applyGo, hd, hr, hne]
          rw [hrun]
          simp [hr, hne]
          intro g r' hg hgr hne2
          rw [← hg, hr] at hgr
          exact Except.ok.inj hgr
      | error e0 =>
        have hrun : applyGo dispatch [i] (content, applied, failed) =
            (content, applied, failed ++ [(i, e0)]) := by
          simp [applyGo, hd, hr]
        rw [hrun]
        simp [hr]
        intro g r' hg hgr
        rw [← hg, hr] at hgr
        exact Except.noConfusion hgr
  · intro lang
    exact ⟨rfl, rfl, rfl, rfl, rfl⟩
  · intro reqContent lang
    exact ⟨rfl, rfl, rfl, rfl, rfl⟩

/-- Witness for C10 at concrete inputs: the one-improvement batch over the
raising dispatch decomposes into its prefix run followed by one step, and
that step's failed-list equivalence holds at the raised `boom` error. -/
theorem C10_witness :
    (applyGo failingDispatch ([impAddSection].take (0 + 1)) ((0 : ℕ), [], []) =
      applyGo failingDispatch [impAddSection]
        (applyGo failingDispatch ([impAddSection].take 0) ((0 : ℕ), [], []))) ∧
    ((applyGo failingDispatch [impAddSection] ((0 : ℕ), [], [])).2.2 =
        [] ++ [(impAddSection, "boom".toList)] ↔
      ∃ f, failingDispatch impAddSection.type = some f ∧
        f 0 impAddSection = Except.error ("boom".toList)) :=
  ⟨C10_applied_failed_characterization.2.1 ℕ inferInstance failingDispatch 0
      [impAddSection] 0 impAddSection rfl,
    (C10_applied_failed_characterization.2.2.1 ℕ inferInstance
        failingDispatch impAddSection 0 [] []).2.2.1 ("boom".toList)⟩

/-! ## C9 — quality-gate exit codes -/

/-- C9: the documented exit-code convention (0 = pass, 1 = fail,
2 = operational error) is unreachable: `QualityGateEnforcer.__init__` passes
the keyword arguments `create_backups` and `cleanup_backups_on_success` to
`UltraworkEnhancerV3.__init__`, which does not accept them, so constructing
the gate raises `TypeError`; consequently a well-formed
`workflow_quality_gate.py` invocation on an existing, passing document exits
2 instead of 0, and `quality_gate_enforcer.py main` (which would also exit 1,
never 2, on bad arguments) dies with the uncaught `TypeError` (exit status
1). -/
theorem C9_gate_construction_bug :
    gateConstructionRaises = true ∧
    workflowGateMain ["workflow_quality_gate.py", "requirements",
      "requirements.md"] (fun _ => true) (fun _ _ => true) = 2 ∧
    enforcerGateMain ["quality_gate_enforcer.py", "requirements",
      "requirements.md"] (fun _ _ => true) = 1 ∧
    enforcerGateMain ["quality_gate_enforcer.py"] (fun _ _ => true) = 1 := by
  refine ⟨by decide, ?_, ?_, by decide⟩ <;>
    simp [workflowGateMain, enforcerGateMain, constructGateEnforcer,
      gateConstructionRaises, v3InitParams, gateEnforcerInitKwargs]

/-! ## C4 lemmas — split-line algebra -/

/-- `splitLines` never returns the empty list. -/
theorem splitLines_ne_nil (s : List Char) : splitLines s ≠ [] := by
  induction s with
  | nil => simp [splitLines]
  | cons c t ih =>
    simp only [splitLines]
    split_ifs
    · simp
    · cases h : splitLines t with
      | nil => exact absurd h ih
      | cons l ls => simp

/-- Unfolding equation: a leading newline opens a fresh empty segment. -/
theorem splitLines_cons_nl (t : List Char) :
    splitLines ('\n' :: t) = [] :: splitLines t := by
  simp [splitLines]

/-- Unfolding equation: a leading non-newline character is prepended to the
first segment. -/
theorem splitLines_cons_ne {c : Char} (t : List Char) (h : c ≠ '\n') :
    splitLines (c :: t) = (splitLines t).modifyHead (c :: ·) := by
  simp only [splitLines, if_neg h]
  cases ht : splitLines t with
  | nil => exact absurd ht (splitLines_ne_nil t)
  | cons l ls => simp [List.modifyHead]

/-- Splitting around an explicit newline splits the two sides
independently. -/
theorem splitLines_append_nl (x y : List Char) :
    splitLines (x ++ '\n' :: y) = splitLines x ++ splitLines y := by
  induction x with
  | nil => simp [splitLines, splitLines_cons_nl]
  | cons c t ih =>
    by_cases hc : c = '\n'
    · subst hc
      rw [List.cons_append, splitLines_cons_nl, ih, splitLines_cons_nl]
      rfl
    · rw [List.cons_append, splitLines_cons_ne _ hc, ih,
        splitLines_cons_ne t hc]
      cases ht : splitLines t with
      | nil => exact absurd ht (splitLines_ne_nil t)
      | cons l ls => simp [List.modifyHead]

/-- `keptLines` distributes over an explicit newline. -/
theorem keptLines_append_nl (x y : List Char) :
    keptLines (x ++ '\n' :: y) = keptLines x ++ keptLines y := by
  simp [keptLines, splitLines_append_nl, List.filter_append]

/-- Every character of a split segment is a character of the document. -/
theorem mem_of_mem_splitLines {s : List Char} {l : List Char} {c : Char}
    (hl : l ∈ splitLines s) (hc : c ∈ l) : c ∈ s := by
  induction s generalizing l with
  | nil =>
    simp [splitLines] at hl
    subst hl
    exact absurd hc (List.not_mem_nil c)
  | cons a t ih =>
    simp only [splitLines] at hl
    split_ifs at hl with ha
    · rcases List.mem_cons.mp hl with h1 | h1
      · subst h1; exact absurd hc (List.not_mem_nil c)
      · exact List.mem_cons_of_mem a (ih h1 hc)
    · cases h : splitLines t with
      | nil => exact absurd h (splitLines_ne_nil t)
      | cons l0 ls =>
        rw [h] at hl
        rcases List.mem_cons.mp hl with h1 | h1
        · subst h1
          rcases List.mem_cons.mp hc with h2 | h2
          · subst h2; exact List.mem_cons_self c t
          · exact List.mem_cons_of_mem a (ih (h ▸ List.mem_cons_self l0 ls) h2)
        · exact List.mem_cons_of_mem a (ih (h ▸ List.mem_cons_of_mem l0 h1) hc)

/-- Right-stripping an all-whitespace list yields the empty list. -/
theorem pyRstrip_allWs {l : List Char} (h : ∀ c ∈ l, isPyWs c = true) :
    pyRstrip l = [] := by
  unfold pyRstrip
  have : l.reverse.dropWhile isPyWs = [] := by
    apply List.dropWhile_eq_nil_iff.mpr
    intro c hc
    exact h c (List.mem_reverse.mp hc)
  rw [this, List.reverse_nil]

/-- An all-whitespace document has no kept lines. -/
theorem keptLines_allWs {s : List Char} (h : ∀ c ∈ s, isPyWs c = true) :
    keptLines s = [] := by
  unfold keptLines
  apply List.filter_eq_nil_iff.mpr
  intro l hl
  rcases List.mem_map.mp hl with ⟨seg, hseg, rfl⟩
  have : pyRstrip seg = [] :=
    pyRstrip_allWs (fun c hc => h c (mem_of_mem_splitLines hseg hc))
  simp [this]

/-- A newline-free document is a single segment. -/
theorem splitLines_no_nl {w : List Char} (h : '\n' ∉ w) :
    splitLines w = [w] := by
  induction w with
  | nil => rfl
  | cons c t ih =>
    have hc : c ≠ '\n' := fun hcc => h (hcc ▸ List.mem_cons_self c t)
    have ht : '\n' ∉ t := fun htt => h (List.mem_cons_of_mem c htt)
    simp only [splitLines, if_neg hc, ih ht]

/-- Appending newline-free text extends the last segment. -/
theorem splitLines_append_no_nl (r : List Char) {w : List Char}
    (h : '\n' ∉ w) :
    splitLines (r ++ w) = extendLast w (splitLines r) := by
  induction r with
  | nil =>
    simp only [List.nil_append, splitLines_no_nl h, splitLines, extendLast]
  | cons c t ih =>
    by_cases hc : c = '\n'
    · subst hc
      rw [List.cons_append, splitLines_cons_nl, ih, splitLines_cons_nl]
      cases ht : splitLines t with
      | nil => exact absurd ht (splitLines_ne_nil t)
      | cons l ls => simp [extendLast]
    · rw [List.cons_append, splitLines_cons_ne _ hc, ih,
        splitLines_cons_ne t hc]
      cases ht : splitLines t with
      | nil => exact absurd ht (splitLines_ne_nil t)
      | cons l ls =>
        cases ls with
        | nil => simp [extendLast, List.modifyHead]
        | cons l2 ls2 => simp [extendLast, List.modifyHead]

/-- Right-stripping absorbs an appended all-whitespace suffix. -/
theorem pyRstrip_append_ws (l : List Char) {w : List Char}
    (h : ∀ c ∈ w, isPyWs c = true) :
    pyRstrip (l ++ w) = pyRstrip l := by
  unfold pyRstrip
  rw [List.reverse_append]
  have hnil : w.reverse.dropWhile isPyWs = [] := by
    apply List.dropWhile_eq_nil_iff.mpr
    intro c hc
    exact h c (List.mem_reverse.mp hc)
  rw [List.dropWhile_append, hnil]
  simp

/-- Extending the last segment with whitespace does not change the kept
lines. -/
theorem keptFilter_extendLast {w : List Char}
    (h : ∀ c ∈ w, isPyWs c = true) :
    ∀ L : List (List Char),
      ((extendLast w L).map pyRstrip).filter (fun l => !l.isEmpty) =
        (L.map pyRstrip).filter (fun l => !l.isEmpty) := by
  intro L
  induction L with
  | nil =>
    simp [extendLast, pyRstrip_allWs h]
  | cons l ls ih =>
    cases ls with
    | nil =>
      simp [extendLast, pyRstrip_append_ws l h]
    | cons l2 ls2 =>
      have hext : extendLast w (l :: l2 :: ls2) =
          l :: extendLast w (l2 :: ls2) := rfl
      simp [hext, List.filter_cons, ih]

/-- Split a list at its first newline. -/
theorem exists_first_nl {w : List Char} (h : '\n' ∈ w) :
    ∃ w1 w2, w = w1 ++ '\n' :: w2 ∧ '\n' ∉ w1 := by
  induction w with
  | nil => cases h
  | cons c t ih =>
    by_cases hc : c = '\n'
    · exact ⟨[], t, by rw [hc]; rfl, by simp⟩
    · have hmem : '\n' ∈ t := by
        rcases List.mem_cons.mp h with h1 | h1
        · exact absurd h1.symm hc
        · exact h1
      rcases ih hmem with ⟨w1, w2, hw, hnotin⟩
      refine ⟨c :: w1, w2, by rw [List.cons_append, hw], ?_⟩
      intro hmem2
      rcases List.mem_cons.mp hmem2 with h1 | h1
      · exact hc h1.symm
      · exact hnotin h1

/-- Appending all-whitespace text does not change the kept lines. -/
theorem keptLines_append_ws (r : List Char) {w : List Char}
    (h : ∀ c ∈ w, isPyWs c = true) :
    keptLines (r ++ w) = keptLines r := by
  by_cases hnl : '\n' ∈ w
  · rcases exists_first_nl hnl with ⟨w1, w2, hw, hw1⟩
    subst hw
    have h1 : ∀ c ∈ w1, isPyWs c = true :=
      fun c hc => h c (List.mem_append_left _ hc)
    have h2 : ∀ c ∈ w2, isPyWs c = true :=
      fun c hc => h c (List.mem_append_right _ (List.mem_cons_of_mem _ hc))
    rw [← List.append_assoc]
    rw [keptLines_append_nl (r ++ w1) w2, keptLines_allWs h2]
    unfold keptLines
    rw [splitLines_append_no_nl r hw1, keptFilter_extendLast h1]
    simp
  · unfold keptLines
    rw [splitLines_append_no_nl r hnl, keptFilter_extendLast h]

/-- `rstrip` does not change the kept lines. -/
theorem keptLines_pyRstrip (s : List Char) :
    keptLines (pyRstrip s) = keptLines s := by
  have hsplit : s = pyRstrip s ++ (s.reverse.takeWhile isPyWs).reverse := by
    unfold pyRstrip
    rw [← List.reverse_append, List.takeWhile_append_dropWhile,
      List.reverse_reverse]
  have hws : ∀ c ∈ (s.reverse.takeWhile isPyWs).reverse, isPyWs c = true :=
    fun c hc => List.mem_takeWhile_imp (List.mem_reverse.mp hc)
  conv_rhs => rw [hsplit]
  exact (keptLines_append_ws (pyRstrip s) hws).symm

/-- `'\n'.join` inverts `split('\n')`. -/
theorem joinLines_splitLines (s : List Char) :
    joinLines (splitLines s) = s := by
  induction s with
  | nil => rfl
  | cons c t ih =>
    by_cases hc : c = '\n'
    · subst hc
      rw [splitLines_cons_nl]
      cases ht : splitLines t with
      | nil => exact absurd ht (splitLines_ne_nil t)
      | cons l ls =>
        have hj : joinLines ([] :: l :: ls) = '\n' :: joinLines (l :: ls) := rfl
        rw [hj, ← ht, ih]
    · rw [splitLines_cons_ne t hc]
      cases ht : splitLines t with
      | nil => exact absurd ht (splitLines_ne_nil t)
      | cons l ls =>
        cases ls with
        | nil =>
          have hjt : joinLines [l] = l := rfl
          have htl : t = l := by rw [← ih, ht, hjt]
          simp [List.modifyHead, joinLines, htl]
        | cons l2 ls2 =>
          have hj : joinLines ((c :: l) :: l2 :: ls2) =
              (c :: l) ++ '\n' :: joinLines (l2 :: ls2) := rfl
          have hj2 : joinLines (l :: l2 :: ls2) =
              l ++ '\n' :: joinLines (l2 :: ls2) := rfl
          simp only [List.modifyHead, hj]
          rw [show ((c :: l) ++ '\n' :: joinLines (l2 :: ls2)) =
            c :: (l ++ '\n' :: joinLines (l2 :: ls2)) from rfl, ← hj2, ← ht, ih]

/-- Kept lines of a joined list are the concatenation of the segments' kept
lines. -/
theorem keptLines_joinLines :
    ∀ L : List (List Char), L ≠ [] →
      keptLines (joinLines L) = L.flatMap keptLines := by
  intro L
  induction L with
  | nil => intro h; exact absurd rfl h
  | cons l ls ih =>
    intro _
    cases ls with
    | nil => simp [joinLines]
    | cons l2 ls2 =>
      have hj : joinLines (l :: l2 :: ls2) =
          l ++ '\n' :: joinLines (l2 :: ls2) := rfl
      rw [hj, keptLines_append_nl, ih (by simp)]
      simp

/-! ## C4 lemmas — insertion shapes preserve kept lines -/

/-- Appending a newline-led block at the end preserves the kept lines. -/
theorem pres_append_nl (c a : List Char) :
    linePreserving c (c ++ '\n' :: a) := by
  unfold linePreserving
  rw [keptLines_append_nl]
  exact List.sublist_append_left _ _

/-- `content.rstrip() + '\n' + more` preserves the kept lines. -/
theorem pres_rstrip_append (c a : List Char) :
    linePreserving c (pyRstrip c ++ '\n' :: a) := by
  unfold linePreserving
  rw [keptLines_append_nl, keptLines_pyRstrip]
  exact List.sublist_append_left _ _

/-- Inserting a block between two newlines preserves the kept lines. -/
theorem pres_mid (x a y : List Char) :
    linePreserving (x ++ '\n' :: y) (x ++ '\n' :: (a ++ '\n' :: y)) := by
  unfold linePreserving
  rw [keptLines_append_nl, keptLines_append_nl, keptLines_append_nl]
  exact (List.sublist_append_right (keptLines a) (keptLines y)).append_left _

/-- Inserting a newline-terminated block right after a newline preserves the
kept lines. -/
theorem pres_insert_after_match (p a y : List Char)
    (ha : ∃ a0, a = a0 ++ ['\n']) :
    linePreserving ((p ++ ['\n']) ++ y) ((p ++ ['\n']) ++ a ++ y) := by
  obtain ⟨a0, rfl⟩ := ha
  have h1 : (p ++ ['\n']) ++ y = p ++ '\n' :: y := by simp
  have h2 : (p ++ ['\n']) ++ (a0 ++ ['\n']) ++ y =
      p ++ '\n' :: (a0 ++ '\n' :: y) := by simp
  rw [h1, h2]
  exact pres_mid p a0 y

/-- Inserting a newline-led block right before a newline preserves the kept
lines. -/
theorem pres_insert_start_nl (x e y' : List Char) :
    linePreserving (x ++ '\n' :: y') (x ++ ('\n' :: e) ++ '\n' :: y') := by
  have h2 : x ++ ('\n' :: e) ++ '\n' :: y' = x ++ '\n' :: (e ++ '\n' :: y') := by
    simp
  rw [h2]
  exact pres_mid x e y'

/-- `lines.insert(pos, elt)` followed by `'\n'.join` preserves the kept
lines of the original document. -/
theorem pres_join_insert (s : List Char) (E : List Char) (p : ℕ) :
    linePreserving s
      (joinLines ((splitLines s).take p ++ [E] ++ (splitLines s).drop p)) := by
  unfold linePreserving
  conv_lhs => rw [← joinLines_splitLines s]
  rw [keptLines_joinLines (splitLines s) (splitLines_ne_nil s),
    keptLines_joinLines _ (by simp)]
  rw [List.flatMap_append, List.flatMap_append]
  conv_lhs => rw [← List.take_append_drop p (splitLines s),
    List.flatMap_append]
  rw [List.append_assoc]
  exact (List.sublist_append_right _ _).append_left _

/-! ## C4 lemmas — searcher decompositions -/

/-- A pattern newline only ever matches a text newline, also under
`IGNORECASE`. -/
theorem ciCharEq_nl {c : Char} (h : ciCharEq '\n' c = true) : c = '\n' := by
  unfold ciCharEq at h
  rw [Bool.or_eq_true, Bool.or_eq_true] at h
  rcases h with (h | h) | h
  · exact (beq_iff_eq.mp h).symm
  · rw [Bool.and_eq_true, Bool.and_eq_true] at h
    exact absurd h.1.1 (by decide)
  · rw [Bool.and_eq_true, Bool.and_eq_true] at h
    exact absurd h.1.1 (by decide)

/-- An alternative starting with a newline can only match at a newline. -/
theorem altAt_nl {ci : Bool} {n y : List Char} (hn : ∃ n', n = '\n' :: n')
    (h : altAt ci n y = true) : ∃ y', y = '\n' :: y' := by
  obtain ⟨n', rfl⟩ := hn
  cases y with
  | nil =>
    exfalso
    cases ci <;> simp [altAt, ciMatchesAt, List.isPrefixOf] at h
  | cons c cs =>
    cases ci with
    | true =>
      simp only [altAt, if_true, ciMatchesAt, Bool.and_eq_true] at h
      exact ⟨cs, by rw [ciCharEq_nl h.1]⟩
    | false =>
      simp only [altAt, Bool.false_eq_true, if_false, List.isPrefixOf,
        Bool.and_eq_true, beq_iff_eq] at h
      exact ⟨cs, by rw [← h.1]⟩

/-- `splitAtFirstAlt` really splits the document, with a matching alternative
at the head of the second part. -/
theorem splitAtFirstAlt_eq {ci : Bool} {alts : List (List Char)} :
    ∀ {s x y : List Char}, splitAtFirstAlt ci alts s = some (x, y) →
      s = x ++ y ∧ ∃ n ∈ alts, altAt ci n y = true := by
  intro s
  induction s with
  | nil =>
    intro x y h
    simp only [splitAtFirstAlt] at h
    split_ifs at h with halts
    rw [Option.some.injEq, Prod.mk.injEq] at h
    obtain ⟨rfl, rfl⟩ := h
    exact ⟨rfl, by simpa using List.any_eq_true.mp halts⟩
  | cons c t ih =>
    intro x y h
    simp only [splitAtFirstAlt] at h
    split_ifs at h with halts
    · rw [Option.some.injEq, Prod.mk.injEq] at h
      obtain ⟨rfl, rfl⟩ := h
      exact ⟨rfl, by simpa using List.any_eq_true.mp halts⟩
    · cases hrec : splitAtFirstAlt ci alts t with
      | none => rw [hrec] at h; cases h
      | some p =>
        obtain ⟨x', y'⟩ := p
        rw [hrec] at h
        simp only [Option.map_some', Option.some.injEq, Prod.mk.injEq] at h
        obtain ⟨hx, hy⟩ := h
        obtain ⟨ht, hex⟩ := ih hrec
        subst hx
        subst hy
        exact ⟨by rw [List.cons_append, ← ht], hex⟩

/-- `splitSpan` splits the document, and the second part is empty (insertion
at end of document) or starts with a newline, provided every end alternative
starts with a newline. -/
theorem splitSpan_decomp {ci : Bool} {startAlts endAlts : List (List Char)}
    (hend : ∀ n ∈ endAlts, ∃ n', n = '\n' :: n') {s x y : List Char}
    (h : splitSpan ci startAlts endAlts s = some (x, y)) :
    s = x ++ y ∧ (y = [] ∨ ∃ y', y = '\n' :: y') := by
  simp only [splitSpan] at h
  split at h
  · cases h
  next x0 y0 h0 =>
    obtain ⟨hs0, -⟩ := splitAtFirstAlt_eq h0
    split at h
    next h1 =>
      rw [Option.some.injEq, Prod.mk.injEq] at h
      obtain ⟨rfl, rfl⟩ := h
      exact ⟨by simp, Or.inl rfl⟩
    next m z h1 =>
      rw [Option.some.injEq, Prod.mk.injEq] at h
      obtain ⟨hx, hy⟩ := h
      obtain ⟨hdrop, n, hmem, haltz⟩ := splitAtFirstAlt_eq h1
      subst hx
      subst hy
      refine ⟨?_, Or.inr (altAt_nl (hend n hmem) haltz)⟩
      rw [hs0]
      conv_lhs => rw [← List.take_append_drop
        (matchedAltLen ci startAlts y0) y0]
      rw [hdrop]
      simp [List.append_assoc]

/-- `restAfterNl` consumes through the first newline. -/
theorem restAfterNl_decomp :
    ∀ {s r : List Char}, restAfterNl s = some r →
      ∃ p, s = p ++ '\n' :: r := by
  intro s
  induction s with
  | nil => intro r h; cases h
  | cons c cs ih =>
    intro r h
    simp only [restAfterNl] at h
    split_ifs at h with hc
    · rw [Option.some.injEq] at h
      exact ⟨[], by rw [hc, h]; rfl⟩
    · obtain ⟨p, hp⟩ := ih h
      exact ⟨c :: p, by rw [List.cons_append, hp]⟩

/-- `consumeDigits` returns a suffix. -/
theorem consumeDigits_suffix {s r : List Char}
    (h : consumeDigits s = some r) : ∃ p, s = p ++ r := by
  cases s with
  | nil => cases h
  | cons c t =>
    simp only [consumeDigits] at h
    split_ifs at h with hc
    rw [Option.some.injEq] at h
    exact ⟨c :: t.takeWhile Char.isDigit, by
      rw [← h, List.cons_append, List.takeWhile_append_dropWhile]⟩

/-- `consumeNumPair` returns a suffix. -/
theorem consumeNumPair_suffix {s r : List Char}
    (h : consumeNumPair s = some r) : ∃ p, s = p ++ r := by
  simp only [consumeNumPair] at h
  split at h
  · cases h
  next r1 h1 =>
    split at h
    next r2 heq =>
      obtain ⟨p1, hp1⟩ := consumeDigits_suffix h1
      obtain ⟨p2, hp2⟩ := consumeDigits_suffix h
      refine ⟨p1 ++ '.' :: p2, ?_⟩
      rw [hp1, hp2]
      simp
    next => cases h

/-- The requirements-heading matcher ends right after a newline. -/
theorem reqHeadingAt_decomp {s r : List Char} (h : reqHeadingAt s = some r) :
    ∃ p, s = p ++ '\n' :: r := by
  simp only [reqHeadingAt] at h
  split_ifs at h with h4 h12
  · split at h
    next r3 hnum =>
      obtain ⟨p3, hp3⟩ := restAfterNl_decomp h
      obtain ⟨p2, hp2⟩ := consumeNumPair_suffix hnum
      refine ⟨s.take 4 ++ ((s.drop 4).take 12 ++ (p2 ++ p3)), ?_⟩
      conv_lhs => rw [← List.take_append_drop 4 s]
      conv_lhs => rw [← List.take_append_drop 12 (s.drop 4)]
      rw [hp2, hp3]
      simp [List.append_assoc]
    next => cases h
  · split at h
    next r3 hnum =>
      obtain ⟨p3, hp3⟩ := restAfterNl_decomp h
      obtain ⟨p2, hp2⟩ := consumeNumPair_suffix hnum
      refine ⟨s.take 4 ++ (p2 ++ p3), ?_⟩
      conv_lhs => rw [← List.take_append_drop 4 s]
      rw [hp2, hp3]
      simp [List.append_assoc]
    next => cases h

/-- The component-heading matcher ends right after a newline. -/
theorem compHeadingAt_decomp {s r : List Char} (h : compHeadingAt s = some r) :
    ∃ p, s = p ++ '\n' :: r := by
  simp only [compHeadingAt] at h
  split_ifs at h with h4
  split at h
  next c0 r1 hnum =>
    split_ifs at h with hc0
    split at h
    · cases h
    next c t =>
      split_ifs at h with hc
      obtain ⟨p3, hp3⟩ := restAfterNl_decomp h
      obtain ⟨p2, hp2⟩ := consumeNumPair_suffix hnum
      refine ⟨s.take 4 ++ (p2 ++ c0 :: c :: p3), ?_⟩
      conv_lhs => rw [← List.take_append_drop 4 s]
      rw [hp2, hp3]
      simp [List.append_assoc]
  next => cases h

/-- `findRest` inherits the end-after-newline property of its matcher. -/
theorem findRest_decomp {matchAt : List Char → Option (List Char)}
    (hm : ∀ s r, matchAt s = some r → ∃ p, s = p ++ '\n' :: r) :
    ∀ {s r : List Char}, findRest matchAt s = some r →
      ∃ p, s = p ++ '\n' :: r := by
  intro s
  induction s with
  | nil => intro r h; exact hm [] r h
  | cons c t ih =>
    intro r h
    simp only [findRest] at h
    split at h
    next r' heq =>
      rw [Option.some.injEq] at h
      subst h
      exact hm _ _ heq
    next heq =>
      obtain ⟨p, hp⟩ := ih h
      exact ⟨c :: p, by rw [List.cons_append, hp]⟩

/-- `scanSplit` splits the document with the first part ending in a
newline. -/
theorem scanSplit_decomp {matchAt : List Char → Option (List Char)}
    (hm : ∀ s r, matchAt s = some r → ∃ p, s = p ++ '\n' :: r)
    {s x y : List Char} (h : scanSplit matchAt s = some (x, y)) :
    s = x ++ y ∧ ∃ p, x = p ++ ['\n'] := by
  simp only [scanSplit] at h
  split at h
  next r heq =>
    rw [Option.some.injEq, Prod.mk.injEq] at h
    obtain ⟨hx, hy⟩ := h
    obtain ⟨p, hp⟩ := findRest_decomp hm heq
    subst hy
    have hlen : s.length - r.length = p.length + 1 := by
      rw [hp]
      simp only [List.length_append, List.length_cons]
      omega
    have hx' : x = p ++ ['\n'] := by
      rw [← hx, hlen, hp, List.take_append_eq_append_take]
      have h1 : p.take (p.length + 1) = p :=
        List.take_of_length_le (by omega)
      have h2 : p.length + 1 - p.length = 1 := by omega
      rw [h1, h2]
      rfl
    exact ⟨by rw [hx', hp]; simp, ⟨p, hx'⟩⟩
  next => cases h

/-! ## C4 lemmas — shapes of the inserted blocks -/

/-- Reflexivity of line preservation. -/
theorem linePreserving_refl (a : List Char) : linePreserving a a :=
  List.Sublist.refl _

/-- Transitivity of line preservation. -/
theorem linePreserving_trans {a b c : List Char} (h1 : linePreserving a b)
    (h2 : linePreserving b c) : linePreserving a c :=
  List.Sublist.trans h1 h2

/-- Reformulation of the mid-insertion lemma with explicit decompositions of
the two documents. -/
theorem pres_mid_of_eq (c r x e y' : List Char) (hc : c = x ++ '\n' :: y')
    (hr : r = x ++ '\n' :: (e ++ '\n' :: y')) : linePreserving c r := by
  rw [hc, hr]
  exact pres_mid x e y'

/-- Inserting a newline-led block at a span end (either the end of the
document or just before a newline) preserves the kept lines. -/
theorem pres_span_insert (x y e : List Char)
    (hy : y = [] ∨ ∃ y', y = '\n' :: y') :
    linePreserving (x ++ y) (x ++ ('\n' :: e) ++ y) := by
  rcases hy with rfl | ⟨y', rfl⟩
  · simpa using pres_append_nl x e
  · exact pres_insert_start_nl x e y'

/-- A list whose last element is a newline splits off that newline. -/
theorem ends_nl_of_getLast :
    ∀ {l : List Char}, l.getLast? = some '\n' → ∃ a0, l = a0 ++ ['\n'] := by
  intro l
  induction l with
  | nil => intro h; cases h
  | cons a t ih =>
    intro h
    cases t with
    | nil =>
      rw [List.getLast?_singleton] at h
      rw [Option.some.injEq] at h
      subst h
      exact ⟨[], rfl⟩
    | cons b t2 =>
      rw [List.getLast?_cons_cons] at h
      obtain ⟨a0, ha0⟩ := ih h
      exact ⟨a :: a0, by rw [List.cons_append, ← ha0]⟩

/-- The acceptance-criteria example ends with a newline. -/
theorem acExample_shape (lang : Lang) :
    ∃ a0, acExample lang = a0 ++ ['\n'] :=
  ends_nl_of_getLast (by cases lang <;> decide)

/-- The traceability annotation ends with a newline. -/
theorem traceAddition_shape : ∃ a0, traceAddition = a0 ++ ['\n'] :=
  ends_nl_of_getLast (by decide)

/-- The edge-case bullets start with a newline. -/
theorem edgeAddition_head (lang : Lang) :
    ∃ e, edgeAddition lang = '\n' :: e := by
  cases lang
  · exact ⟨_, rfl⟩
  · exact ⟨_, rfl⟩

/-- The example component starts with a newline. -/
theorem componentAddition_head (lang : Lang) :
    ∃ e, componentAddition lang = '\n' :: e := by
  cases lang
  · exact ⟨_, rfl⟩
  · exact ⟨_, rfl⟩

/-- The single section-end alternative starts with a newline. -/
theorem sectionEndAlts_nl : ∀ n ∈ sectionEndAlts, ∃ n', n = '\n' :: n' := by
  intro n hn
  simp only [sectionEndAlts, List.mem_singleton] at hn
  exact ⟨"## ".toList, by rw [hn]; decide⟩

/-- Both subsection-end alternatives start with a newline. -/
theorem subsectionEndAlts_nl :
    ∀ n ∈ subsectionEndAlts, ∃ n', n = '\n' :: n' := by
  intro n hn
  simp only [subsectionEndAlts, List.mem_cons, List.not_mem_nil,
    or_false] at hn
  rcases hn with rfl | rfl
  · exact ⟨"### ".toList, rfl⟩
  · exact ⟨"## ".toList, rfl⟩

/-- Each rendered `missing_nfr` block starts with a newline. -/
theorem nfrBlock_head (lang : Lang) (m : List Char) :
    ∃ e, (if lang = Lang.zh then
        ("\n### ".toList) ++ m ++ ("\n- 待补充具体".toList) ++ m ++ ("要求\n".toList)
      else
        ("\n### ".toList) ++ pyTitle m ++ (" Requirements\n- To be specified\n".toList)) =
      '\n' :: e := by
  cases lang
  · exact ⟨_, rfl⟩
  · exact ⟨_, rfl⟩

/-- The concatenation of the first at-most-three rendered blocks starts with a
newline once `missing_nfr` is non-empty. -/
theorem nfrAdditions_shape (g : List Char → List Char)
    (hg : ∀ m, ∃ e, g m = '\n' :: e) {ms : List (List Char)}
    (h : ¬ ms.isEmpty = true) :
    ∃ e, (ms.take 3).flatMap g = '\n' :: e := by
  cases ms with
  | nil => simp at h
  | cons m ms2 =>
    obtain ⟨e, he⟩ := hg m
    refine ⟨e ++ (List.take 2 ms2).flatMap g, ?_⟩
    simp [he]

/-! ## C4 lemmas — every concrete strategy preserves the kept lines -/

/-- Line preservation of `_add_section_to_requirements`. -/
theorem pres_addSectionToRequirements (c : List Char) (i : Improvement)
    (lang : Lang) : linePreserving c (addSectionToRequirements c i lang) := by
  simp only [addSectionToRequirements]
  split_ifs with h1 h2 h3
  · exact linePreserving_refl c
  · exact linePreserving_refl c
  · exact pres_join_insert c ('\n' :: getTemplate (templateNameOf i)) _
  · exact pres_rstrip_append c ('\n' :: getTemplate (templateNameOf i))

/-- Splicing a newline-led addition at the point `_append_to_nfr_section`
finds preserves the kept lines. -/
theorem pres_nfr_splice (c : List Char) {x y m z : List Char}
    (hxy : splitAtFirstAlt true nfrPatAlts c = some (x, y))
    (hmz : splitAtFirstAlt true ["\n## ".toList]
      (y.drop (matchedAltLen true nfrPatAlts y)) = some (m, z))
    {ad : List Char} {e : List Char} (he : ad = '\n' :: e) :
    linePreserving c
      (x ++ y.take (matchedAltLen true nfrPatAlts y) ++ m ++ ad ++ z) := by
  obtain ⟨hcxy, -⟩ := splitAtFirstAlt_eq hxy
  obtain ⟨hdrop, n, hn, haltz⟩ := splitAtFirstAlt_eq hmz
  have hz : ∃ z', z = '\n' :: z' := by
    apply altAt_nl _ haltz
    simp only [List.mem_singleton] at hn
    exact ⟨"## ".toList, by rw [hn]; decide⟩
  obtain ⟨z', rfl⟩ := hz
  refine pres_mid_of_eq c _
    (x ++ List.take (matchedAltLen true nfrPatAlts y) y ++ m) e z' ?_ ?_
  · rw [hcxy]
    conv_lhs => rw [← List.take_append_drop
      (matchedAltLen true nfrPatAlts y) y]
    rw [hdrop]
    simp [List.append_assoc]
  · rw [he]
    simp [List.append_assoc]

/-- Line preservation of `_append_to_nfr_section`. -/
theorem pres_appendToNfrSection (c : List Char) (i : Improvement)
    (lang : Lang) : linePreserving c (appendToNfrSection c i lang) := by
  simp only [appendToNfrSection]
  split_ifs with hmiss hzh
  · exact linePreserving_refl c
  · obtain ⟨e, he⟩ := nfrAdditions_shape
      (fun nfr => ("\n### ".toList) ++ nfr ++ ("\n- 待补充具体".toList) ++
        nfr ++ ("要求\n".toList))
      (fun m => ⟨_, rfl⟩) hmiss
    split
    · exact linePreserving_refl c
    next x y hxy =>
      split
      next m z hmz => exact pres_nfr_splice c hxy hmz he
      next hnone =>
        rw [he]
        exact pres_append_nl c e
  · obtain ⟨e, he⟩ := nfrAdditions_shape
      (fun nfr => ("\n### ".toList) ++ pyTitle nfr ++
        (" Requirements\n- To be specified\n".toList))
      (fun m => ⟨_, rfl⟩) hmiss
    split
    · exact linePreserving_refl c
    next x y hxy =>
      split
      next m z hmz => exact pres_nfr_splice c hxy hmz he
      next hnone =>
        rw [he]
        exact pres_append_nl c e

/-- Line preservation of `_add_nfr_section`. -/
theorem pres_addNfrSection (c : List Char) (i : Improvement) (lang : Lang) :
    linePreserving c (addNfrSection c i lang) := by
  simp only [addNfrSection]
  split_ifs with h1
  · exact pres_appendToNfrSection c i lang
  · exact pres_rstrip_append c ('\n' :: nfrTemplate lang)

/-- Line preservation of `_enhance_acceptance_criteria`. -/
theorem pres_enhanceAcceptanceCriteria (c : List Char) (i : Improvement)
    (lang : Lang) : linePreserving c (enhanceAcceptanceCriteria c i lang) := by
  simp only [enhanceAcceptanceCriteria]
  split
  · exact linePreserving_refl c
  next x y hxy =>
    obtain ⟨hc, p, hp⟩ :=
      scanSplit_decomp (fun s r h => reqHeadingAt_decomp h) hxy
    obtain ⟨a0, ha0⟩ := acExample_shape lang
    rw [hc, hp]
    exact pres_insert_after_match p (acExample lang) y ⟨a0, ha0⟩

/-- Line preservation of `_add_error_handling_requirements`. -/
theorem pres_addErrorHandlingRequirements (c : List Char) (i : Improvement)
    (lang : Lang) :
    linePreserving c (addErrorHandlingRequirements c i lang) := by
  simp only [addErrorHandlingRequirements]
  split
  next x y hxy =>
    obtain ⟨hc, hy⟩ := splitSpan_decomp sectionEndAlts_nl hxy
    rw [hc]
    exact pres_span_insert x y ('\n' :: errorHandlingTemplate lang) hy
  next => exact pres_rstrip_append c ('\n' :: errorHandlingTemplate lang)

/-- Line preservation of `_add_edge_case_criteria`. -/
theorem pres_addEdgeCaseCriteria (c : List Char) (i : Improvement)
    (lang : Lang) : linePreserving c (addEdgeCaseCriteria c i lang) := by
  simp only [addEdgeCaseCriteria]
  split
  next x y hxy =>
    obtain ⟨hc, hy⟩ := splitSpan_decomp subsectionEndAlts_nl hxy
    obtain ⟨e, he⟩ := edgeAddition_head lang
    rw [hc, he]
    exact pres_span_insert x y e hy
  next => exact linePreserving_refl c

/-- Line preservation of `_add_glossary_section`. -/
theorem pres_addGlossarySection (c : List Char) (i : Improvement)
    (lang : Lang) : linePreserving c (addGlossarySection c i lang) := by
  simp only [addGlossarySection]
  split
  next x y hxy =>
    obtain ⟨hc, hy⟩ := splitSpan_decomp sectionEndAlts_nl hxy
    rw [hc]
    exact pres_span_insert x y ('\n' :: glossaryTemplate lang) hy
  next => exact pres_rstrip_append c ('\n' :: glossaryTemplate lang)

/-- Line preservation of `_add_section_to_design`. -/
theorem pres_addSectionToDesign (c : List Char) (i : Improvement)
    (lang : Lang) : linePreserving c (addSectionToDesign c i lang) := by
  simp only [addSectionToDesign]
  split_ifs with h1 h2
  · exact linePreserving_refl c
  · exact linePreserving_refl c
  · exact pres_rstrip_append c ('\n' :: getTemplate (templateNameOf i))

/-- Line preservation of `_add_architecture_diagram`. -/
theorem pres_addArchitectureDiagram (c : List Char) (i : Improvement)
    (lang : Lang) : linePreserving c (addArchitectureDiagram c i lang) := by
  simp only [addArchitectureDiagram]
  split
  next x y hxy =>
    obtain ⟨hc, hy⟩ := splitSpan_decomp subsectionEndAlts_nl hxy
    rw [hc]
    exact pres_span_insert x y ('\n' :: archDiagramTemplate lang) hy
  next => exact pres_rstrip_append c ('\n' :: archDiagramTemplate lang)

/-- Line preservation of `_add_technology_stack`. -/
theorem pres_addTechnologyStack (c : List Char) (i : Improvement)
    (lang : Lang) : linePreserving c (addTechnologyStack c i lang) := by
  simp only [addTechnologyStack]
  exact pres_rstrip_append c ('\n' :: techStackTemplate lang)

/-- Line preservation of `_add_component_details`. -/
theorem pres_addComponentDetails (c : List Char) (i : Improvement)
    (lang : Lang) : linePreserving c (addComponentDetails c i lang) := by
  simp only [addComponentDetails]
  split
  next x y hxy =>
    obtain ⟨hc, hy⟩ := splitSpan_decomp sectionEndAlts_nl hxy
    obtain ⟨e, he⟩ := componentAddition_head lang
    rw [hc, he]
    exact pres_span_insert x y e hy
  next => exact linePreserving_refl c

/-- Line preservation of `_add_requirements_traceability`. -/
theorem pres_addRequirementsTraceability (c : List Char) (i : Improvement)
    (rc : List Char) (lang : Lang) :
    linePreserving c (addRequirementsTraceability c i rc lang) := by
  simp only [addRequirementsTraceability]
  split
  · exact linePreserving_refl c
  next x y hxy =>
    obtain ⟨hc, p, hp⟩ :=
      scanSplit_decomp (fun s r h => compHeadingAt_decomp h) hxy
    obtain ⟨a0, ha0⟩ := traceAddition_shape
    rw [hc, hp]
    exact pres_insert_after_match p traceAddition y ⟨a0, ha0⟩

/-- Line preservation of `_add_correctness_properties`. -/
theorem pres_addCorrectnessProperties (c : List Char) (i : Improvement)
    (lang : Lang) : linePreserving c (addCorrectnessProperties c i lang) := by
  simp only [addCorrectnessProperties]
  exact pres_rstrip_append c ('\n' :: correctnessTemplate lang)

/-! ## C4 lemmas — from strategies to the batch loop -/

/-- Every strategy the requirements dispatch installs preserves the kept
lines of the content it is applied to. -/
theorem reqDispatch_preserves {lang : Lang} {t : ImprovementType}
    {f : Strategy (List Char)} (hf : reqDispatch lang t = some f)
    {c : List Char} {i : Improvement} {r : List Char}
    (hr : f c i = Except.ok r) : linePreserving c r := by
  cases t with
  | addSection =>
    simp only [reqDispatch, Option.some.injEq] at hf
    subst hf
    simp only [Except.ok.injEq] at hr
    subst hr
    exact pres_addSectionToRequirements c i lang
  | addNfr =>
    simp only [reqDispatch, Option.some.injEq] at hf
    subst hf
    simp only [Except.ok.injEq] at hr
    subst hr
    exact pres_addNfrSection c i lang
  | enhanceCriteria =>
    simp only [reqDispatch, Option.some.injEq] at hf
    subst hf
    simp only [Except.ok.injEq] at hr
    subst hr
    exact pres_enhanceAcceptanceCriteria c i lang
  | addErrorHandling =>
    simp only [reqDispatch, Option.some.injEq] at hf
    subst hf
    simp only [Except.ok.injEq] at hr
    subst hr
    exact pres_addErrorHandlingRequirements c i lang
  | addEdgeCases =>
    simp only [reqDispatch, Option.some.injEq] at hf
    subst hf
    simp only [Except.ok.injEq] at hr
    subst hr
    exact pres_addEdgeCaseCriteria c i lang
  | addGlossaryTerm =>
    simp only [reqDispatch, Option.some.injEq] at hf
    subst hf
    simp only [Except.ok.injEq] at hr
    subst hr
    exact pres_addGlossarySection c i lang
  | addComponentDetail => exact Option.noConfusion hf
  | addTraceability => exact Option.noConfusion hf
  | addProperties => exact Option.noConfusion hf
  | addRationale => exact Option.noConfusion hf
  | addDiagram => exact Option.noConfusion hf

/-- Every strategy the design dispatch installs preserves the kept lines of
the content it is applied to. -/
theorem designDispatch_preserves {rc : List Char} {lang : Lang}
    {t : ImprovementType} {f : Strategy (List Char)}
    (hf : designDispatch rc lang t = some f)
    {c : List Char} {i : Improvement} {r : List Char}
    (hr : f c i = Except.ok r) : linePreserving c r := by
  cases t with
  | addSection =>
    simp only [designDispatch, Option.some.injEq] at hf
    subst hf
    simp only [Except.ok.injEq] at hr
    subst hr
    exact pres_addSectionToDesign c i lang
  | addDiagram =>
    simp only [designDispatch, Option.some.injEq] at hf
    subst hf
    simp only [Except.ok.injEq] at hr
    subst hr
    exact pres_addArchitectureDiagram c i lang
  | addRationale =>
    simp only [designDispatch, Option.some.injEq] at hf
    subst hf
    simp only [Except.ok.injEq] at hr
    subst hr
    exact pres_addTechnologyStack c i lang
  | addComponentDetail =>
    simp only [designDispatch, Option.some.injEq] at hf
    subst hf
    simp only [Except.ok.injEq] at hr
    subst hr
    exact pres_addComponentDetails c i lang
  | addTraceability =>
    simp only [designDispatch, Option.some.injEq] at hf
    subst hf
    simp only [Except.ok.injEq] at hr
    subst hr
    exact pres_addRequirementsTraceability c i rc lang
  | addProperties =>
    simp only [designDispatch, Option.some.injEq] at hf
    subst hf
    simp only [Except.ok.injEq] at hr
    subst hr
    exact pres_addCorrectnessProperties c i lang
  | enhanceCriteria => exact Option.noConfusion hf
  | addNfr => exact Option.noConfusion hf
  | addErrorHandling => exact Option.noConfusion hf
  | addEdgeCases => exact Option.noConfusion hf
  | addGlossaryTerm => exact Option.noConfusion hf

/-- When every installed strategy preserves kept lines, so does the whole
application loop, whatever improvements it skips or records as failed. -/
theorem applyGo_preserves
    {dispatch : ImprovementType → Option (Strategy (List Char))}
    (hstrat : ∀ t f, dispatch t = some f →
      ∀ c i r, f c i = Except.ok r → linePreserving c r) :
    ∀ (imps : List Improvement) (c : List Char)
      (applied : List Improvement) (failed : List (Improvement × PyErr)),
      linePreserving c (applyGo dispatch imps (c, applied, failed)).1 := by
  intro imps
  induction imps with
  | nil => intro c a fl; exact linePreserving_refl c
  | cons i rest ih =>
    intro c a fl
    simp only [applyGo]
    split
    · exact ih c a fl
    next g hg =>
      split
      next result hr =>
        split_ifs with hne
        · exact linePreserving_trans (hstrat i.type g hg c i result hr)
            (ih result (a ++ [i]) fl)
        · exact ih c a fl
      next e he =>
        exact ih c a (fl ++ [(i, e)])

/-- Line preservation of `apply_requirements_improvements`. -/
theorem applyRequirementsImprovements_preserves (c : List Char)
    (imps : List Improvement) (lang : Lang) :
    linePreserving c
      (applyRequirementsImprovements c imps lang).modifiedContent := by
  simp only [applyRequirementsImprovements, applyBatch]
  exact applyGo_preserves
    (fun t f hf c i r hr => reqDispatch_preserves hf hr)
    (sortByPriority imps) c [] []

/-- Line preservation of `apply_design_improvements`. -/
theorem applyDesignImprovements_preserves (c : List Char)
    (imps : List Improvement) (rc : List Char) (lang : Lang) :
    linePreserving c
      (applyDesignImprovements c imps rc lang).modifiedContent := by
  simp only [applyDesignImprovements, applyBatch]
  exact applyGo_preserves
    (fun t f hf c i r hr => designDispatch_preserves hf hr)
    (sortByPriority imps) c [] []

/-- C4: the Content Mutator is strictly additive up to trailing whitespace.
For every input document, improvement list and language, the right-stripped
non-blank lines of the input form an ordered sublist of those of the
`modified_content` returned by `apply_requirements_improvements` and by
`apply_design_improvements`; consequently, after any N ≥ 0 enhancement
cycles, every right-stripped non-blank line of the original document still
appears, in order, in the final content.  The spec's stronger claim — every
non-blank line contained verbatim — is refuted by `C4_counterexample`:
`content.rstrip()` in the end-append strategies deletes trailing whitespace
of the last non-blank line. -/
theorem C4_preservation :
    (∀ (c : List Char) (imps : List Improvement) (lang : Lang),
        linePreserving c
          (applyRequirementsImprovements c imps lang).modifiedContent) ∧
    (∀ (c rc : List Char) (imps : List Improvement) (lang : Lang),
        linePreserving c
          (applyDesignImprovements c imps rc lang).modifiedContent) ∧
    (∀ (c : List Char) (batches : List (List Improvement)) (lang : Lang),
        linePreserving c
          (batches.foldl
            (fun d imps =>
              (applyRequirementsImprovements d imps lang).modifiedContent)
            c)) := by
  refine ⟨applyRequirementsImprovements_preserves,
    fun c rc imps lang => applyDesignImprovements_preserves c imps rc lang,
    ?_⟩
  intro c batches lang
  induction batches generalizing c with
  | nil => exact linePreserving_refl c
  | cons b bs ih =>
    simp only [List.foldl_cons]
    exact linePreserving_trans
      (applyRequirementsImprovements_preserves c b lang)
      (ih _)

set_option maxRecDepth 8000 in
/-- C4 counterexample to verbatim line containment: in the document
`"# T\nfoo "` the non-blank line `"foo "` (non-blank because its
right-strip is non-empty) is a line of the input, yet after applying the
`add_nfr` improvement the line is gone — it survives only as its
right-stripped form `"foo"` — and the exact string `"foo "` no longer occurs
anywhere in the modified content. -/
theorem C4_counterexample :
    "foo ".toList ∈ splitLines trailingWsDoc ∧
    pyRstrip ("foo ".toList) ≠ [] ∧
    "foo ".toList ∉
      splitLines (applyRequirementsImprovements trailingWsDoc [impNfr]
        Lang.en).modifiedContent ∧
    containsSub (applyRequirementsImprovements trailingWsDoc [impNfr]
        Lang.en).modifiedContent ("foo ".toList) = false := by
  decide

end KiroSpec
